import Mathlib

/-!
Verification of the PinAllWindows reconciliation core.

The development shallowly embeds the pure reconciliation engine of the
repository:

* `src/core.js` — the "keep existing" engine (`getTabUrl`, `isSyncableUrl`,
  `normalizeUrl`, `canonicalKeyForUrl`, `stableSortStrings`,
  `computePinnedWindowPlan`), embedded below in namespace `Core`.
* the exact-identity / "replace with newest" variant core (Gemini-only
  origin grouping, plan with an `update` list), embedded in namespace
  `Variant`.

The only piece that is not repository code is the host platform's WHATWG
`URL` object (`new URL(...)`, `.origin`, `.hash`, `.toString()`), which the
engine calls.  It is modelled here by `parseChars` / `renderChars` on
`List Char`: scheme validation, the `//`-authority form for http(s) with
host, optional non-default port, path defaulting to `/`, query and
fragment splitting, and serialization.  Percent-encoding, IDN, dot-segment
resolution, case normalization and the lenient extra-slash forms of the
platform parser are not modelled; schemes are accepted in lowercase form.
-/

namespace PinAW

/-- Decimal digit character, by code point. -/
def isDig (c : Char) : Bool := 48 ≤ c.toNat && c.toNat ≤ 57

/-- Lowercase ASCII letter. -/
def isLowerAlpha (c : Char) : Bool := 97 ≤ c.toNat && c.toNat ≤ 122

/-- Characters allowed after the first character of a URL scheme. -/
def isSchemeChar (c : Char) : Bool :=
  isLowerAlpha c || isDig c || c == '+' || c == '-' || c == '.'

/-- A valid (lowercase) URL scheme: a letter followed by scheme characters. -/
def validScheme : List Char → Bool
  | [] => false
  | c :: cs => isLowerAlpha c && cs.all isSchemeChar

/-- Split a character list at the first occurrence of `c`: the part before,
and (when `c` occurs) the part after it. -/
def splitFirst (c : Char) : List Char → List Char × Option (List Char)
  | [] => ([], none)
  | x :: xs =>
    if x = c then ([], some xs)
    else
      let r := splitFirst c xs
      (x :: r.1, r.2)

/-- Split a character list at the first `'/'`, keeping the slash with the
second component (used to cut an authority from the path). -/
def spanUntilSlash : List Char → List Char × List Char
  | [] => ([], [])
  | x :: xs =>
    if x = '/' then ([], x :: xs)
    else
      let r := spanUntilSlash xs
      (x :: r.1, r.2)

/-- Numeric value of a digit list (most significant digit first). -/
def valOfDigits (cs : List Char) : Nat :=
  cs.foldl (fun a c => a * 10 + (c.toNat - 48)) 0

/-- Parse a port string: all characters must be digits. -/
def parsePortChars (cs : List Char) : Option Nat :=
  if cs.all isDig then some (valOfDigits cs) else none

/-- The character for a decimal digit. -/
def digitChar : Nat → Char
  | 0 => '0' | 1 => '1' | 2 => '2' | 3 => '3' | 4 => '4'
  | 5 => '5' | 6 => '6' | 7 => '7' | 8 => '8' | _ => '9'

/-- Decimal representation of a natural number as characters. -/
def natChars (n : Nat) : List Char :=
  if n = 0 then ['0'] else ((Nat.digits 10 n).reverse.map digitChar)

/-- The default port of a special scheme, elided by the URL serializer. -/
def defaultPort (sch : List Char) : Nat :=
  if sch = "http".data then 80 else 443

/-- Model of a parsed platform URL: scheme; for http(s) the authority
(host, optional non-default port); the path (for non-special schemes, the
raw body after the colon); query and fragment, each `none` when absent. -/
structure UrlModel where
  scheme : List Char
  auth : Option (List Char × Option Nat)
  path : List Char
  query : Option (List Char)
  fragment : Option (List Char)
  deriving DecidableEq

/-- Parse the authority (host, optional port) of a special-scheme URL and
assemble the record; `pathRest` is the remainder starting at the path. -/
def parseAuthority (sch authority pathRest : List Char)
    (q f : Option (List Char)) : Option UrlModel :=
  match splitFirst ':' authority with
  | (host, none) =>
    if host = [] then none
    else some ⟨sch, some (host, none),
      (if pathRest = [] then ['/'] else pathRest), q, f⟩
  | (host, some portCs) =>
    if host = [] then none
    else if portCs = [] then
      some ⟨sch, some (host, none),
        (if pathRest = [] then ['/'] else pathRest), q, f⟩
    else
      match parsePortChars portCs with
      | none => none
      | some n =>
        some ⟨sch, some (host, if n = defaultPort sch then none else some n),
          (if pathRest = [] then ['/'] else pathRest), q, f⟩

/-- Parse what follows the scheme's colon (`rest`), given the already-split
query and fragment. -/
def parseAfterScheme (sch rest : List Char)
    (q f : Option (List Char)) : Option UrlModel :=
  if validScheme sch then
    if sch = "http".data ∨ sch = "https".data then
      match rest with
      | '/' :: '/' :: after =>
        parseAuthority sch (spanUntilSlash after).1 (spanUntilSlash after).2 q f
      | _ => none
    else some ⟨sch, none, rest, q, f⟩
  else none

/-- Modelled from the platform (not repository code): the WHATWG URL parser
restricted as described in the file header.  Returns `none` where
`new URL(s)` throws. -/
def parseChars (s : List Char) : Option UrlModel :=
  match splitFirst ':' (splitFirst '?' (splitFirst '#' s).1).1 with
  | (_, none) => none
  | (sch, some rest) =>
    parseAfterScheme sch rest (splitFirst '?' (splitFirst '#' s).1).2
      (splitFirst '#' s).2

/-- Serialization of an optional port. -/
def renderOptPort : Option Nat → List Char
  | none => []
  | some n => ':' :: natChars n

/-- Serialization of an optional query. -/
def renderQuery : Option (List Char) → List Char
  | none => []
  | some q => '?' :: q

/-- Serialization of an optional fragment. -/
def renderFragment : Option (List Char) → List Char
  | none => []
  | some f => '#' :: f

/-- Serialization of everything before the query. -/
def renderCore (u : UrlModel) : List Char :=
  match u.auth with
  | some (h, p) => u.scheme ++ ':' :: '/' :: '/' :: (h ++ renderOptPort p ++ u.path)
  | none => u.scheme ++ ':' :: u.path

/-- Modelled from the platform: the URL serializer (`u.toString()`). -/
def renderChars (u : UrlModel) : List Char :=
  renderCore u ++ renderQuery u.query ++ renderFragment u.fragment

/-- Modelled from the platform: `u.origin` — `scheme://host[:port]` for
http(s) URLs, the string `"null"` for non-special schemes. -/
def originChars (u : UrlModel) : List Char :=
  match u.auth with
  | some (h, p) => u.scheme ++ ':' :: '/' :: '/' :: (h ++ renderOptPort p)
  | none => "null".data

/-- `new URL(s)`, at the `String` level; `none` models a thrown TypeError. -/
def parseUrlStr (s : String) : Option UrlModel :=
  parseChars s.data

/-- `u.toString()`, at the `String` level. -/
def renderUrlStr (u : UrlModel) : String :=
  ⟨renderChars u⟩

/-- `u.origin`, at the `String` level. -/
def originStr (u : UrlModel) : String :=
  ⟨originChars u⟩

/-- `u.hostname`: the host for authority URLs, empty otherwise. -/
def hostnameChars (u : UrlModel) : List Char :=
  match u.auth with
  | some (h, _) => h
  | none => []

/-! ### Lemmas about the splitting primitives -/

theorem splitFirst_of_not_mem (c : Char) (l : List Char) (h : c ∉ l) :
    splitFirst c l = (l, none) := by
  induction l with
  | nil => rfl
  | cons x xs ih =>
    have hx : x ≠ c := fun he => h (he ▸ List.mem_cons_self x xs)
    have hxs : c ∉ xs := fun hm => h (List.mem_cons_of_mem x hm)
    simp [splitFirst, hx, ih hxs]

theorem splitFirst_append_cons (c : Char) (xs ys : List Char) (h : c ∉ xs) :
    splitFirst c (xs ++ c :: ys) = (xs, some ys) := by
  induction xs with
  | nil => simp [splitFirst]
  | cons x t ih =>
    have hx : x ≠ c := fun he => h (he ▸ List.mem_cons_self x t)
    have ht : c ∉ t := fun hm => h (List.mem_cons_of_mem x hm)
    simp [splitFirst, hx, ih ht]

theorem splitFirst_fst_ne (c : Char) (l : List Char) :
    ∀ x ∈ (splitFirst c l).1, x ≠ c := by
  induction l with
  | nil => intro x hx; simp [splitFirst] at hx
  | cons y ys ih =>
    intro x hx
    by_cases hy : y = c
    · simp [splitFirst, hy] at hx
    · simp [splitFirst, hy] at hx
      rcases hx with rfl | hx
      · exact hy
      · exact ih x hx

theorem splitFirst_decomp (c : Char) (l : List Char) :
    ((splitFirst c l).2 = none ∧ (splitFirst c l).1 = l) ∨
      ∃ r, (splitFirst c l).2 = some r ∧ l = (splitFirst c l).1 ++ c :: r := by
  induction l with
  | nil => left; exact ⟨rfl, rfl⟩
  | cons y ys ih =>
    by_cases hy : y = c
    · right; exact ⟨ys, by simp [splitFirst, hy]⟩
    · rcases ih with ⟨h2, h1⟩ | ⟨r, h2, h1⟩
      · left; constructor
        · simp [splitFirst, hy, h2]
        · simp [splitFirst, hy, h1]
      · right
        refine ⟨r, ?_, ?_⟩
        · simp [splitFirst, hy, h2]
        · simp only [splitFirst, if_neg hy]
          simpa using congrArg (fun t => y :: t) h1

theorem splitFirst_fst_subset (c : Char) (l : List Char) :
    ∀ x ∈ (splitFirst c l).1, x ∈ l := by
  intro x hx
  rcases splitFirst_decomp c l with ⟨_, h1⟩ | ⟨r, _, h1⟩
  · exact h1 ▸ hx
  · rw [h1]; exact List.mem_append_left _ hx

theorem splitFirst_snd_subset (c : Char) (l r : List Char)
    (h : (splitFirst c l).2 = some r) : ∀ x ∈ r, x ∈ l := by
  intro x hx
  rcases splitFirst_decomp c l with ⟨h2, _⟩ | ⟨r', h2, h1⟩
  · rw [h2] at h; cases h
  · rw [h2] at h; cases h
    rw [h1]; exact List.mem_append_right _ (List.mem_cons_of_mem _ hx)

theorem spanUntilSlash_of_not_mem (l : List Char) (h : '/' ∉ l) :
    spanUntilSlash l = (l, []) := by
  induction l with
  | nil => rfl
  | cons x xs ih =>
    have hx : x ≠ '/' := fun he => h (he ▸ List.mem_cons_self x xs)
    have hxs : '/' ∉ xs := fun hm => h (List.mem_cons_of_mem x hm)
    simp [spanUntilSlash, hx, ih hxs]

theorem spanUntilSlash_append (xs ys : List Char) (h : '/' ∉ xs) :
    spanUntilSlash (xs ++ '/' :: ys) = (xs, '/' :: ys) := by
  induction xs with
  | nil => simp [spanUntilSlash]
  | cons x t ih =>
    have hx : x ≠ '/' := fun he => h (he ▸ List.mem_cons_self x t)
    have ht : '/' ∉ t := fun hm => h (List.mem_cons_of_mem x hm)
    simp [spanUntilSlash, hx, ih ht]

theorem spanUntilSlash_fst_ne (l : List Char) :
    ∀ x ∈ (spanUntilSlash l).1, x ≠ '/' := by
  induction l with
  | nil => intro x hx; simp [spanUntilSlash] at hx
  | cons y ys ih =>
    intro x hx
    by_cases hy : y = '/'
    · simp [spanUntilSlash, hy] at hx
    · simp [spanUntilSlash, hy] at hx
      rcases hx with rfl | hx
      · exact hy
      · exact ih x hx

theorem spanUntilSlash_decomp (l : List Char) :
    l = (spanUntilSlash l).1 ++ (spanUntilSlash l).2 := by
  induction l with
  | nil => rfl
  | cons y ys ih =>
    by_cases hy : y = '/'
    · simp [spanUntilSlash, hy]
    · simp only [spanUntilSlash, if_neg hy]
      simpa using congrArg (fun t => y :: t) ih

theorem spanUntilSlash_snd_cases (l : List Char) :
    (spanUntilSlash l).2 = [] ∨ ∃ t, (spanUntilSlash l).2 = '/' :: t := by
  induction l with
  | nil => left; rfl
  | cons y ys ih =>
    by_cases hy : y = '/'
    · right; exact ⟨ys, by simp [spanUntilSlash, hy]⟩
    · rcases ih with h | ⟨t, h⟩
      · left; simp [spanUntilSlash, hy, h]
      · right; exact ⟨t, by simp [spanUntilSlash, hy, h]⟩

theorem spanUntilSlash_snd_subset (l : List Char) :
    ∀ x ∈ (spanUntilSlash l).2, x ∈ l := by
  intro x hx
  have h := (spanUntilSlash_decomp l).symm
  exact h ▸ List.mem_append_right _ hx

theorem spanUntilSlash_fst_subset (l : List Char) :
    ∀ x ∈ (spanUntilSlash l).1, x ∈ l := by
  intro x hx
  have h := (spanUntilSlash_decomp l).symm
  exact h ▸ List.mem_append_left _ hx

/-! ### Character-class lemmas -/

theorem isDig_ne (c : Char) (h : isDig c = true) :
    c ≠ '/' ∧ c ≠ ':' ∧ c ≠ '?' ∧ c ≠ '#' := by
  refine ⟨fun hc => ?_, fun hc => ?_, fun hc => ?_, fun hc => ?_⟩ <;>
    (subst hc; exact absurd h (by decide))

theorem isSchemeChar_ne (c : Char) (h : isSchemeChar c = true) :
    c ≠ '/' ∧ c ≠ ':' ∧ c ≠ '?' ∧ c ≠ '#' := by
  refine ⟨fun hc => ?_, fun hc => ?_, fun hc => ?_, fun hc => ?_⟩ <;>
    (subst hc; exact absurd h (by decide))

theorem isLowerAlpha_isSchemeChar (c : Char) (h : isLowerAlpha c = true) :
    isSchemeChar c = true := by
  simp [isSchemeChar, h]

theorem validScheme_all (sch : List Char) (h : validScheme sch = true) :
    ∀ c ∈ sch, isSchemeChar c = true := by
  cases sch with
  | nil => intro c hc; cases hc
  | cons x xs =>
    simp only [validScheme, Bool.and_eq_true, List.all_eq_true] at h
    intro c hc
    rcases List.mem_cons.mp hc with rfl | hc
    · exact isLowerAlpha_isSchemeChar c h.1
    · exact h.2 c hc

theorem digitChar_isDig (d : Nat) : isDig (digitChar d) = true := by
  unfold digitChar
  split <;> decide

theorem digitChar_val (d : Nat) (h : d < 10) : (digitChar d).toNat - 48 = d := by
  interval_cases d <;> decide

theorem mem_natChars (n : Nat) : ∀ c ∈ natChars n, isDig c = true := by
  intro c hc
  unfold natChars at hc
  by_cases h0 : n = 0
  · rw [if_pos h0] at hc
    simp at hc
    subst hc; decide
  · rw [if_neg h0] at hc
    rcases List.mem_map.mp (by simpa using hc) with ⟨d, _, rfl⟩
    exact digitChar_isDig d

theorem natChars_ne_nil (n : Nat) : natChars n ≠ [] := by
  unfold natChars
  by_cases h0 : n = 0
  · simp [h0]
  · rw [if_neg h0]
    simp [Nat.digits_ne_nil_iff_ne_zero.mpr h0]

theorem valOfDigits_append_singleton (xs : List Char) (c : Char) :
    valOfDigits (xs ++ [c]) = valOfDigits xs * 10 + (c.toNat - 48) := by
  simp [valOfDigits, List.foldl_append]

theorem valOfDigits_rev_map (ds : List Nat) (h : ∀ d ∈ ds, d < 10) :
    valOfDigits (ds.reverse.map digitChar) = Nat.ofDigits 10 ds := by
  induction ds with
  | nil => rfl
  | cons d tl ih =>
    rw [List.reverse_cons, List.map_append]
    simp only [List.map_cons, List.map_nil]
    rw [valOfDigits_append_singleton]
    rw [ih (fun x hx => h x (List.mem_cons_of_mem _ hx))]
    rw [Nat.ofDigits_cons]
    rw [digitChar_val d (h d (List.mem_cons_self _ _))]
    ring

theorem valOfDigits_natChars (n : Nat) : valOfDigits (natChars n) = n := by
  by_cases h0 : n = 0
  · subst h0; decide
  · unfold natChars
    rw [if_neg h0]
    rw [valOfDigits_rev_map (Nat.digits 10 n)
      (fun d hd => Nat.digits_lt_base (by norm_num) hd)]
    exact_mod_cast Nat.ofDigits_digits 10 n

theorem parsePortChars_natChars (n : Nat) :
    parsePortChars (natChars n) = some n := by
  unfold parsePortChars
  rw [if_pos (List.all_eq_true.mpr (fun c hc => mem_natChars n c hc))]
  rw [valOfDigits_natChars]

theorem mem_renderOptPort (p : Option Nat) (c : Char) (h : c ∈ renderOptPort p) :
    c = ':' ∨ isDig c = true := by
  cases p with
  | none => cases h
  | some n =>
    rcases List.mem_cons.mp h with rfl | h
    · exact Or.inl rfl
    · exact Or.inr (mem_natChars n c h)

/-! ### The round-trip invariant of the URL model -/

/-- The shape invariant of every `parseChars` output: exactly what the
serializer needs to reparse to the same record. -/
def Canonical (u : UrlModel) : Prop :=
  match u.auth with
  | some (h, p) =>
    (u.scheme = "http".data ∨ u.scheme = "https".data)
    ∧ h ≠ []
    ∧ (∀ c ∈ h, c ≠ '/' ∧ c ≠ ':' ∧ c ≠ '?' ∧ c ≠ '#')
    ∧ (∀ n, p = some n → n ≠ defaultPort u.scheme)
    ∧ (∃ t, u.path = '/' :: t)
    ∧ (∀ c ∈ u.path, c ≠ '?' ∧ c ≠ '#')
    ∧ (∀ q, u.query = some q → ∀ c ∈ q, c ≠ '#')
  | none =>
    validScheme u.scheme = true
    ∧ u.scheme ≠ "http".data ∧ u.scheme ≠ "https".data
    ∧ (∀ c ∈ u.path, c ≠ '?' ∧ c ≠ '#')
    ∧ (∀ q, u.query = some q → ∀ c ∈ q, c ≠ '#')

theorem parseAuthority_canonical (sch authority pathRest : List Char)
    (q f : Option (List Char)) (u : UrlModel)
    (hsch : sch = "http".data ∨ sch = "https".data)
    (hauth : ∀ x ∈ authority, x ≠ '/' ∧ x ≠ '?' ∧ x ≠ '#')
    (hpath : pathRest = [] ∨ ∃ t, pathRest = '/' :: t)
    (hpathc : ∀ x ∈ pathRest, x ≠ '?' ∧ x ≠ '#')
    (hq : ∀ qv, q = some qv → ∀ x ∈ qv, x ≠ '#')
    (h : parseAuthority sch authority pathRest q f = some u) : Canonical u := by
  have hpathGood : (if pathRest = [] then ['/'] else pathRest) = ['/']
      ∨ ∃ t, (if pathRest = [] then ['/'] else pathRest) = '/' :: t := by
    by_cases hp : pathRest = []
    · exact Or.inl (by rw [if_pos hp])
    · rcases hpath with hp' | ⟨t, ht⟩
      · exact absurd hp' hp
      · exact Or.inr ⟨t, by rw [if_neg hp, ht]⟩
  have hpathShape : ∃ t, (if pathRest = [] then ['/'] else pathRest) = '/' :: t := by
    rcases hpathGood with hg | hg
    · exact ⟨[], by rw [hg]⟩
    · exact hg
  have hpathChars : ∀ c ∈ (if pathRest = [] then ['/'] else pathRest),
      c ≠ '?' ∧ c ≠ '#' := by
    by_cases hp : pathRest = []
    · rw [if_pos hp]
      intro c hc
      rcases List.mem_cons.mp hc with rfl | hc
      · exact ⟨by decide, by decide⟩
      · cases hc
    · rw [if_neg hp]; exact hpathc
  have hhost1 := splitFirst_fst_ne ':' authority
  have hhost2 := splitFirst_fst_subset ':' authority
  have hostNeOf : ∀ host o, splitFirst ':' authority = (host, o) →
      ∀ c ∈ host, c ≠ '/' ∧ c ≠ ':' ∧ c ≠ '?' ∧ c ≠ '#' := by
    intro host o hsp c hc
    have hc1 : c ∈ (splitFirst ':' authority).1 := by rw [hsp]; exact hc
    have h2 := hauth c (hhost2 c hc1)
    exact ⟨h2.1, hhost1 c hc1, h2.2.1, h2.2.2⟩
  unfold parseAuthority at h
  split at h
  case _ host heq =>
    split at h
    · simp at h
    · cases h
      exact ⟨hsch, by assumption, hostNeOf host none heq,
        fun n hn => Option.noConfusion hn, hpathShape, hpathChars, hq⟩
  case _ host portCs heq =>
    split at h
    · simp at h
    · split at h
      · cases h
        exact ⟨hsch, by assumption, hostNeOf host (some portCs) heq,
          fun n hn => Option.noConfusion hn, hpathShape, hpathChars, hq⟩
      · split at h
        · simp at h
        case _ n hpp =>
          cases h
          refine ⟨hsch, by assumption, hostNeOf host (some portCs) heq,
            ?_, hpathShape, hpathChars, hq⟩
          intro n' hn'
          by_cases hd : n = defaultPort sch
          · rw [if_pos hd] at hn'; cases hn'
          · rw [if_neg hd] at hn'
            cases hn'
            exact hd

theorem parseAfterScheme_canonical (sch rest : List Char)
    (q f : Option (List Char)) (u : UrlModel)
    (hrest : ∀ x ∈ rest, x ≠ '?' ∧ x ≠ '#')
    (hq : ∀ qv, q = some qv → ∀ x ∈ qv, x ≠ '#')
    (h : parseAfterScheme sch rest q f = some u) : Canonical u := by
  unfold parseAfterScheme at h
  by_cases hv : validScheme sch
  · rw [if_pos hv] at h
    by_cases hs : sch = "http".data ∨ sch = "https".data
    · rw [if_pos hs] at h
      split at h
      case _ after =>
        have hafter : ∀ x ∈ after, x ≠ '?' ∧ x ≠ '#' := fun x hx =>
          hrest x (List.mem_cons_of_mem _ (List.mem_cons_of_mem _ hx))
        refine parseAuthority_canonical sch (spanUntilSlash after).1
          (spanUntilSlash after).2 q f u hs ?_ ?_ ?_ hq h
        · intro x hx
          have hne := spanUntilSlash_fst_ne after x hx
          have hmem := spanUntilSlash_fst_subset after x hx
          exact ⟨hne, (hafter x hmem).1, (hafter x hmem).2⟩
        · exact spanUntilSlash_snd_cases after
        · intro x hx
          exact hafter x (spanUntilSlash_snd_subset after x hx)
      case _ =>
        simp at h
    · rw [if_neg hs] at h
      cases h
      push_neg at hs
      exact ⟨hv, hs.1, hs.2, hrest, hq⟩
  · rw [if_neg hv] at h; cases h

/-- Every successful parse satisfies the round-trip invariant. -/
theorem parseChars_canonical (s : List Char) (u : UrlModel)
    (h : parseChars s = some u) : Canonical u := by
  unfold parseChars at h
  rcases hsp : splitFirst ':' (splitFirst '?' (splitFirst '#' s).1).1 with ⟨sch, o⟩
  rw [hsp] at h
  cases o with
  | none => cases h
  | some rest =>
    have hBne := splitFirst_fst_ne '#' s
    have hQne := splitFirst_fst_ne '?' (splitFirst '#' s).1
    have hQsub := splitFirst_fst_subset '?' (splitFirst '#' s).1
    have hrestsub : ∀ x ∈ rest, x ∈ (splitFirst '?' (splitFirst '#' s).1).1 := by
      apply splitFirst_snd_subset
      rw [hsp]
    refine parseAfterScheme_canonical sch rest _ _ u ?_ ?_ h
    · intro x hx
      exact ⟨hQne x (hrestsub x hx), hBne x (hQsub x (hrestsub x hx))⟩
    · intro qv hqv x hx
      have hsub := splitFirst_snd_subset '?' (splitFirst '#' s).1 qv hqv
      exact hBne x (hsub x hx)

theorem parseChars_via (s X C sch rest : List Char) (q f : Option (List Char))
    (h1 : splitFirst '#' s = (X, f))
    (h2 : splitFirst '?' X = (C, q))
    (h3 : splitFirst ':' C = (sch, some rest)) :
    parseChars s = parseAfterScheme sch rest q f := by
  unfold parseChars
  simp only [h1, h2, h3]

theorem parseAuthority_via_none (sch authority pathRest : List Char)
    (q f : Option (List Char)) (host : List Char)
    (hsp : splitFirst ':' authority = (host, none)) :
    parseAuthority sch authority pathRest q f =
      if host = [] then none
      else some ⟨sch, some (host, none),
        (if pathRest = [] then ['/'] else pathRest), q, f⟩ := by
  unfold parseAuthority
  simp only [hsp]

theorem parseAuthority_via_port (sch authority pathRest : List Char)
    (q f : Option (List Char)) (host portCs : List Char)
    (hsp : splitFirst ':' authority = (host, some portCs)) :
    parseAuthority sch authority pathRest q f =
      (if host = [] then none
      else if portCs = [] then
        some ⟨sch, some (host, none),
          (if pathRest = [] then ['/'] else pathRest), q, f⟩
      else
        match parsePortChars portCs with
        | none => none
        | some n =>
          some ⟨sch, some (host, if n = defaultPort sch then none else some n),
            (if pathRest = [] then ['/'] else pathRest), q, f⟩) := by
  unfold parseAuthority
  simp only [hsp]

theorem parseAfterScheme_slashes (sch after : List Char)
    (q f : Option (List Char)) :
    parseAfterScheme sch ('/' :: '/' :: after) q f =
      if validScheme sch then
        if sch = "http".data ∨ sch = "https".data then
          parseAuthority sch (spanUntilSlash after).1 (spanUntilSlash after).2 q f
        else some ⟨sch, none, '/' :: '/' :: after, q, f⟩
      else none := rfl

theorem splitFirst_render_fragment (X : List Char) (f : Option (List Char))
    (hX : ∀ x ∈ X, x ≠ '#') :
    splitFirst '#' (X ++ renderFragment f) = (X, f) := by
  cases f with
  | none =>
    show splitFirst '#' (X ++ []) = (X, none)
    rw [List.append_nil]
    exact splitFirst_of_not_mem '#' X (fun hm => hX '#' hm rfl)
  | some fv => exact splitFirst_append_cons '#' X fv (fun hm => hX '#' hm rfl)

theorem splitFirst_render_query (C : List Char) (q : Option (List Char))
    (hC : ∀ x ∈ C, x ≠ '?') :
    splitFirst '?' (C ++ renderQuery q) = (C, q) := by
  cases q with
  | none =>
    show splitFirst '?' (C ++ []) = (C, none)
    rw [List.append_nil]
    exact splitFirst_of_not_mem '?' C (fun hm => hC '?' hm rfl)
  | some qv => exact splitFirst_append_cons '?' C qv (fun hm => hC '?' hm rfl)

theorem mem_web_core (sch h : List Char) (p : Option Nat) (path : List Char)
    (x : Char)
    (hx : x ∈ sch ++ ':' :: '/' :: '/' :: (h ++ renderOptPort p ++ path)) :
    x ∈ sch ∨ x = ':' ∨ x = '/' ∨ x ∈ h ∨ x ∈ renderOptPort p ∨ x ∈ path := by
  simp only [List.mem_append, List.mem_cons] at hx
  tauto

theorem mem_opaque_core (sch path : List Char) (x : Char)
    (hx : x ∈ sch ++ ':' :: path) : x ∈ sch ∨ x = ':' ∨ x ∈ path := by
  simp only [List.mem_append, List.mem_cons] at hx
  tauto

theorem mem_scheme_special (sch : List Char)
    (hsch : sch = "http".data ∨ sch = "https".data) (x : Char) (hx : x ∈ sch) :
    x ≠ ':' ∧ x ≠ '/' ∧ x ≠ '?' ∧ x ≠ '#' := by
  rcases hsch with rfl | rfl <;>
    (refine ⟨fun he => ?_, fun he => ?_, fun he => ?_, fun he => ?_⟩ <;>
      (subst he; exact absurd hx (by decide)))

theorem validScheme_special (sch : List Char)
    (hsch : sch = "http".data ∨ sch = "https".data) :
    validScheme sch = true := by
  rcases hsch with rfl | rfl <;> decide

/-- A canonical record reparses to itself: serialization round-trips. -/
theorem canonical_render_parse (u : UrlModel) (hu : Canonical u) :
    parseChars (renderChars u) = some u := by
  obtain ⟨sch, auth, path, query, frag⟩ := u
  cases auth with
  | some hp =>
    obtain ⟨host, p⟩ := hp
    obtain ⟨hsch, hhostNe, hhostc, hport, ⟨pt, hpathEq⟩, hpathc, hqc⟩ := hu
    dsimp only at hsch hport hpathEq hpathc hqc
    have hCq : ∀ x ∈ sch ++ ':' :: '/' :: '/' ::
        (host ++ renderOptPort p ++ path), x ≠ '?' := by
      intro x hx
      rcases mem_web_core sch host p path x hx with h1 | h1 | h1 | h1 | h1 | h1
      · exact (mem_scheme_special sch hsch x h1).2.2.1
      · intro he; subst he; exact absurd h1 (by decide)
      · intro he; subst he; exact absurd h1 (by decide)
      · exact (hhostc x h1).2.2.1
      · rcases mem_renderOptPort p x h1 with h2 | h2
        · intro he; subst he; exact absurd h2 (by decide)
        · exact (isDig_ne x h2).2.2.1
      · exact (hpathc x h1).1
    have hXh : ∀ x ∈ (sch ++ ':' :: '/' :: '/' ::
        (host ++ renderOptPort p ++ path)) ++ renderQuery query, x ≠ '#' := by
      intro x hx
      rcases List.mem_append.mp hx with h1 | h1
      · rcases mem_web_core sch host p path x h1 with h2 | h2 | h2 | h2 | h2 | h2
        · exact (mem_scheme_special sch hsch x h2).2.2.2
        · intro he; subst he; exact absurd h2 (by decide)
        · intro he; subst he; exact absurd h2 (by decide)
        · exact (hhostc x h2).2.2.2
        · rcases mem_renderOptPort p x h2 with h3 | h3
          · intro he; subst he; exact absurd h3 (by decide)
          · exact (isDig_ne x h3).2.2.2
        · exact (hpathc x h2).2
      · cases query with
        | none => cases h1
        | some qv =>
          rcases List.mem_cons.mp h1 with rfl | h2
          · decide
          · exact hqc qv rfl x h2
    have hnoSlash : '/' ∉ host ++ renderOptPort p := by
      intro hm
      rcases List.mem_append.mp hm with h1 | h1
      · exact (hhostc '/' h1).1 rfl
      · rcases mem_renderOptPort p '/' h1 with h2 | h2
        · exact absurd h2 (by decide)
        · exact (isDig_ne '/' h2).1 rfl
    have hnoColonHost : ':' ∉ host := fun hm => (hhostc ':' hm).2.1 rfl
    have h1 : splitFirst '#' (renderChars ⟨sch, some (host, p), path, query, frag⟩)
        = ((sch ++ ':' :: '/' :: '/' :: (host ++ renderOptPort p ++ path))
            ++ renderQuery query, frag) :=
      splitFirst_render_fragment _ frag hXh
    have h2 : splitFirst '?' ((sch ++ ':' :: '/' :: '/' ::
        (host ++ renderOptPort p ++ path)) ++ renderQuery query)
        = (sch ++ ':' :: '/' :: '/' :: (host ++ renderOptPort p ++ path), query) :=
      splitFirst_render_query _ query hCq
    have h3 : splitFirst ':' (sch ++ ':' :: '/' :: '/' ::
        (host ++ renderOptPort p ++ path))
        = (sch, some ('/' :: '/' :: (host ++ renderOptPort p ++ path))) :=
      splitFirst_append_cons ':' sch _
        (fun hm => (mem_scheme_special sch hsch ':' hm).1 rfl)
    rw [parseChars_via _ _ _ sch _ query frag h1 h2 h3]
    rw [parseAfterScheme_slashes]
    rw [if_pos (validScheme_special sch hsch), if_pos hsch]
    have hspan : spanUntilSlash (host ++ renderOptPort p ++ path)
        = (host ++ renderOptPort p, path) := by
      rw [hpathEq]
      exact spanUntilSlash_append (host ++ renderOptPort p) pt hnoSlash
    cases p with
    | none =>
      have hsp : splitFirst ':' (host ++ renderOptPort none) = (host, none) := by
        show splitFirst ':' (host ++ []) = (host, none)
        rw [List.append_nil]
        exact splitFirst_of_not_mem ':' host hnoColonHost
      rw [parseAuthority_via_none sch _ _ query frag host (by rw [hspan]; exact hsp)]
      rw [if_neg hhostNe]
      simp only [hspan]
      rw [if_neg (by rw [hpathEq]; exact List.cons_ne_nil '/' pt)]
    | some n =>
      have hsp : splitFirst ':' (host ++ renderOptPort (some n))
          = (host, some (natChars n)) :=
        splitFirst_append_cons ':' host (natChars n) hnoColonHost
      rw [parseAuthority_via_port sch _ _ query frag host (natChars n)
        (by rw [hspan]; exact hsp)]
      rw [if_neg hhostNe]
      rw [if_neg (natChars_ne_nil n)]
      rw [parsePortChars_natChars n]
      simp only [hspan]
      rw [if_neg (hport n rfl)]
      rw [if_neg (by rw [hpathEq]; exact List.cons_ne_nil '/' pt)]
  | none =>
    obtain ⟨hvs, hns1, hns2, hpathc, hqc⟩ := hu
    dsimp only at hvs hns1 hns2 hpathc hqc
    have hschc := validScheme_all sch hvs
    have hCq : ∀ x ∈ sch ++ ':' :: path, x ≠ '?' := by
      intro x hx
      rcases mem_opaque_core sch path x hx with h1 | h1 | h1
      · exact (isSchemeChar_ne x (hschc x h1)).2.2.1
      · intro he; subst he; exact absurd h1 (by decide)
      · exact (hpathc x h1).1
    have hXh : ∀ x ∈ (sch ++ ':' :: path) ++ renderQuery query, x ≠ '#' := by
      intro x hx
      rcases List.mem_append.mp hx with h1 | h1
      · rcases mem_opaque_core sch path x h1 with h2 | h2 | h2
        · exact (isSchemeChar_ne x (hschc x h2)).2.2.2
        · intro he; subst he; exact absurd h2 (by decide)
        · exact (hpathc x h2).2
      · cases query with
        | none => cases h1
        | some qv =>
          rcases List.mem_cons.mp h1 with rfl | h2
          · decide
          · exact hqc qv rfl x h2
    have h1 : splitFirst '#' (renderChars ⟨sch, none, path, query, frag⟩)
        = ((sch ++ ':' :: path) ++ renderQuery query, frag) :=
      splitFirst_render_fragment _ frag hXh
    have h2 : splitFirst '?' ((sch ++ ':' :: path) ++ renderQuery query)
        = (sch ++ ':' :: path, query) :=
      splitFirst_render_query _ query hCq
    have h3 : splitFirst ':' (sch ++ ':' :: path) = (sch, some path) :=
      splitFirst_append_cons ':' sch path
        (fun hm => (isSchemeChar_ne ':' (hschc ':' hm)).2.1 rfl)
    rw [parseChars_via _ _ _ sch path query frag h1 h2 h3]
    unfold parseAfterScheme
    rw [if_pos hvs, if_neg (by push_neg; exact ⟨hns1, hns2⟩)]

/-! ### Shared repository core functions (`src/core.js` and the variant core) -/

/-- A pinned-tab descriptor as the engine reads it: `id`, committed `url`
and in-flight `pendingUrl` (an absent field is `none`). -/
structure TabInfo where
  id : Nat
  url : Option String
  pendingUrl : Option String
  deriving DecidableEq

/-- JS `a || b` on an optional string (the empty string is falsy). -/
def jsOr (a : Option String) (b : String) : String :=
  match a with
  | some s => if s = "" then b else s
  | none => b

/-- `getTabUrl`: `tab?.url || tab?.pendingUrl || ""`. -/
def getTabUrl (t : TabInfo) : String :=
  jsOr t.url (jsOr t.pendingUrl "")

/-- `parseUrl`: `new URL(url)`, or `null` on failure. -/
def parseUrl (url : String) : Option UrlModel := parseUrlStr url

/-- `isSyncableUrl`: false for the empty string, else parse and accept
exactly the http and https protocols. -/
def isSyncableUrl (url : String) : Bool :=
  if url = "" then false
  else
    match parseUrl url with
    | some u => u.scheme = "http".data || u.scheme = "https".data
    | none => false

/-- `normalizeUrl`: parse, set the hash to empty, serialize; the input
unchanged on parse failure. -/
def normalizeUrl (url : String) : String :=
  match parseUrl url with
  | some u => renderUrlStr ⟨u.scheme, u.auth, u.path, u.query, none⟩
  | none => url

/-- JS default sort comparison on strings, code unit by code unit
(code-point lexicographic; identical for the ASCII strings at hand). -/
def strLeChars : List Char → List Char → Bool
  | [], _ => true
  | _ :: _, [] => false
  | a :: as, b :: bs =>
    if a.toNat < b.toNat then true
    else if b.toNat < a.toNat then false
    else strLeChars as bs

/-- `a <= b` as `Array.prototype.sort`'s default comparator orders strings. -/
def strLe (a b : String) : Bool := strLeChars a.data b.data

/-- `stableSortStrings`: `Array.from(xs).sort()`, lexicographic. -/
def stableSortStrings (xs : List String) : List String :=
  List.insertionSort (fun a b => strLe a b = true) xs

/-- `GEMINI_HOST` of the variant core. -/
def GEMINI_HOST : String := "gemini.google.com"

/-- `isGeminiUrl` of the variant core. -/
def isGeminiUrl (url : String) : Bool :=
  match parseUrl url with
  | some u => hostnameChars u = GEMINI_HOST.data
  | none => false

/-- One grouped instance inside `existingByKey`: `{ id, url }` with the
normalized URL. -/
structure PinEntry where
  id : Nat
  url : String
  deriving DecidableEq

/-- Lookup in an insertion-ordered association list (JS `Map.get`). -/
def alistGet {β : Type} (k : String) : List (String × β) → Option β
  | [] => none
  | (k', v) :: rest => if k' = k then some v else alistGet k rest

/-- JS `Map.has`. -/
def mapHas {β : Type} (m : List (String × β)) (k : String) : Bool :=
  (alistGet k m).isSome

/-- `const list = existingByKey.get(key) || []; list.push(e); set(key, list)`:
append `e` to `k`'s group, keeping the JS `Map` insertion order of keys. -/
def upsert (m : List (String × List PinEntry)) (k : String) (e : PinEntry) :
    List (String × List PinEntry) :=
  match m with
  | [] => [(k, [e])]
  | (k', es) :: rest =>
    if k' = k then (k', es ++ [e]) :: rest else (k', es) :: upsert rest k e

/-- One iteration of the grouping loop shared by both engines: skip a
non-syncable tab, else push its entry onto its identity key's group. -/
def buildStep (keyFn : String → String) (m : List (String × List PinEntry))
    (t : TabInfo) : List (String × List PinEntry) :=
  if isSyncableUrl (getTabUrl t) then
    upsert m (keyFn (normalizeUrl (getTabUrl t)))
      ⟨t.id, normalizeUrl (getTabUrl t)⟩
  else m

/-- The grouping loop shared by both engines: group the syncable pinned
tabs by identity key (`keyFn` applied to the normalized URL), in input
order. -/
def buildExisting (keyFn : String → String) (tabs : List TabInfo) :
    List (String × List PinEntry) :=
  tabs.foldl (buildStep keyFn) []

/-- The instances of identity key `k` among the (grouped) input tabs, in
input order: the specification-level reading of one group of
`buildExisting`. -/
def groupOf (keyFn : String → String) (tabs : List TabInfo) (k : String) :
    List PinEntry :=
  match tabs with
  | [] => []
  | t :: rest =>
    if isSyncableUrl (getTabUrl t) then
      if keyFn (normalizeUrl (getTabUrl t)) = k then
        ⟨t.id, normalizeUrl (getTabUrl t)⟩ :: groupOf keyFn rest k
      else groupOf keyFn rest k
    else groupOf keyFn rest k

/-- An entry of `plan.create`: `{ key, url }`, `url` being the canonical
map's value for `key` (`undefined` modelled as `none`). -/
structure CreateItem where
  key : String
  url : Option String
  deriving DecidableEq

/-- An entry of `plan.update`: `{ tabId, url }`. -/
structure UpdateItem where
  tabId : Nat
  url : String
  deriving DecidableEq

/-- A reconciliation plan. -/
structure Plan where
  create : List CreateItem
  update : List UpdateItem
  removeTabIds : List Nat
  deriving DecidableEq

/-- The purge loop shared by both engines: every group whose key is not in
the canonical map contributes all of its tab ids, in map insertion order. -/
def purgeLoop (m : List (String × String)) :
    List (String × List PinEntry) → List Nat
  | [] => []
  | (k, es) :: rest =>
    (if mapHas m k then [] else es.map PinEntry.id) ++ purgeLoop m rest

namespace Core

/-- `canonicalKeyForUrl` of `src/core.js`: normalize, reparse, and key by
origin; the normalized string itself when unparseable. -/
def canonicalKeyForUrl (url : String) : String :=
  match parseUrl (normalizeUrl url) with
  | none => normalizeUrl url
  | some u => "origin:" ++ originStr u

/-- The per-key loop of `computePinnedWindowPlan` in `src/core.js`: create
a missing key; otherwise keep the first instance and remove duplicates. -/
def planKeys (m : List (String × String))
    (ex : List (String × List PinEntry)) :
    List String → List CreateItem × List Nat
  | [] => ([], [])
  | k :: ks =>
    let rest := planKeys m ex ks
    let existing := (alistGet k ex).getD []
    if existing = [] then (⟨k, alistGet k m⟩ :: rest.1, rest.2)
    else (rest.1, (existing.drop 1).map PinEntry.id ++ rest.2)

/-- `computePinnedWindowPlan` of `src/core.js` ("keep existing" policy:
`update` is never filled). -/
def computePinnedWindowPlan (pinnedTabs : List TabInfo)
    (canonicalMap : List (String × String)) : Plan :=
  let ex := buildExisting canonicalKeyForUrl pinnedTabs
  let ks := stableSortStrings (canonicalMap.map Prod.fst)
  ⟨(planKeys canonicalMap ex ks).1, [],
    (planKeys canonicalMap ex ks).2 ++ purgeLoop canonicalMap ex⟩

end Core

namespace Variant

/-- `canonicalKeyForUrl` of the variant core: the normalized URL itself,
except origin-level grouping for the Gemini host. -/
def canonicalKeyForUrl (url : String) : String :=
  match parseUrl (normalizeUrl url) with
  | none => normalizeUrl url
  | some u =>
    if hostnameChars u = GEMINI_HOST.data then "origin:" ++ originStr u
    else normalizeUrl url

/-- The per-key loop of the variant `computePinnedWindowPlan`: create a
missing key, keep the first instance and remove duplicates, and retarget
the kept instance when its URL differs from the canonical target. -/
def planKeys (m : List (String × String))
    (ex : List (String × List PinEntry)) :
    List String → List CreateItem × List UpdateItem × List Nat
  | [] => ([], [], [])
  | k :: ks =>
    let rest := planKeys m ex ks
    match alistGet k ex with
    | none => (⟨k, alistGet k m⟩ :: rest.1, rest.2.1, rest.2.2)
    | some [] => (⟨k, alistGet k m⟩ :: rest.1, rest.2.1, rest.2.2)
    | some (keep :: dups) =>
      let upd :=
        match alistGet k m with
        | some target =>
          if keep.url ≠ target then [(⟨keep.id, target⟩ : UpdateItem)] else []
        | none => []
      (rest.1, upd ++ rest.2.1, dups.map PinEntry.id ++ rest.2.2)

/-- The variant `computePinnedWindowPlan` ("replace with newest" policy). -/
def computePinnedWindowPlan (pinnedTabs : List TabInfo)
    (canonicalMap : List (String × String)) : Plan :=
  let ex := buildExisting canonicalKeyForUrl pinnedTabs
  let ks := stableSortStrings (canonicalMap.map Prod.fst)
  ⟨(planKeys canonicalMap ex ks).1, (planKeys canonicalMap ex ks).2.1,
    (planKeys canonicalMap ex ks).2.2 ++ purgeLoop canonicalMap ex⟩

end Variant

/-! ### Association-list and grouping lemmas -/

theorem alistGet_eq_none_iff {β : Type} (k : String) (m : List (String × β)) :
    alistGet k m = none ↔ k ∉ m.map Prod.fst := by
  induction m with
  | nil => simp [alistGet]
  | cons kv rest ih =>
    obtain ⟨k', v⟩ := kv
    by_cases hk : k' = k
    · subst hk; simp [alistGet]
    · simp [alistGet, hk, ih, Ne.symm hk]

theorem mapHas_iff_mem {β : Type} (m : List (String × β)) (k : String) :
    mapHas m k = true ↔ k ∈ m.map Prod.fst := by
  unfold mapHas
  rw [Option.isSome_iff_ne_none]
  rw [Ne, alistGet_eq_none_iff]
  exact not_not

theorem alistGet_mem {β : Type} (k : String) (v : β) (m : List (String × β))
    (h : alistGet k m = some v) : (k, v) ∈ m := by
  induction m with
  | nil => simp [alistGet] at h
  | cons kv rest ih =>
    obtain ⟨k', v'⟩ := kv
    by_cases hk : k' = k
    · subst hk
      rw [alistGet, if_pos rfl] at h
      cases h
      exact List.mem_cons_self _ _
    · rw [alistGet, if_neg hk] at h
      exact List.mem_cons_of_mem _ (ih h)

theorem mem_alistGet {β : Type} (k : String) (v : β) (m : List (String × β))
    (hnd : (m.map Prod.fst).Nodup) (h : (k, v) ∈ m) : alistGet k m = some v := by
  induction m with
  | nil => cases h
  | cons kv rest ih =>
    obtain ⟨k', v'⟩ := kv
    rcases List.mem_cons.mp h with he | hm
    · cases he
      rw [alistGet, if_pos rfl]
    · have hk : k' ≠ k := by
        intro he
        subst he
        have : k' ∈ rest.map Prod.fst :=
          List.mem_map.mpr ⟨(k', v), hm, rfl⟩
        exact (List.nodup_cons.mp hnd).1 this
      rw [alistGet, if_neg hk]
      exact ih (List.nodup_cons.mp hnd).2 hm

theorem upsert_get_same (m : List (String × List PinEntry)) (k : String)
    (e : PinEntry) :
    alistGet k (upsert m k e) = some ((alistGet k m).getD [] ++ [e]) := by
  induction m with
  | nil => simp [upsert, alistGet]
  | cons kv rest ih =>
    obtain ⟨k', es⟩ := kv
    by_cases hk : k' = k
    · subst hk; simp [upsert, alistGet]
    · simp [upsert, alistGet, hk, ih]

theorem upsert_get_other (m : List (String × List PinEntry)) (k : String)
    (e : PinEntry) (k' : String) (h : k' ≠ k) :
    alistGet k' (upsert m k e) = alistGet k' m := by
  have hks : ¬ k = k' := fun he => h he.symm
  induction m with
  | nil => simp [upsert, alistGet, hks]
  | cons kv rest ih =>
    obtain ⟨k0, es⟩ := kv
    by_cases hk : k0 = k
    · subst hk
      have : k0 ≠ k' := fun he => h he.symm
      simp [upsert, alistGet, this]
    · by_cases hk0 : k0 = k'
      · subst hk0; simp [upsert, alistGet, hk]
      · simp [upsert, alistGet, hk, hk0, ih]

theorem upsert_keys (m : List (String × List PinEntry)) (k : String)
    (e : PinEntry) :
    (upsert m k e).map Prod.fst =
      if k ∈ m.map Prod.fst then m.map Prod.fst else m.map Prod.fst ++ [k] := by
  induction m with
  | nil => simp [upsert]
  | cons kv rest ih =>
    obtain ⟨k', es⟩ := kv
    by_cases hk : k' = k
    · subst hk; simp [upsert]
    · simp only [upsert, if_neg hk, List.map_cons]
      rw [ih]
      by_cases hm : k ∈ rest.map Prod.fst
      · rw [if_pos hm, if_pos (by simp [hm])]
      · rw [if_neg hm, if_neg (by simp [hm, Ne.symm hk])]
        simp

theorem upsert_keys_nodup (m : List (String × List PinEntry)) (k : String)
    (e : PinEntry) (h : (m.map Prod.fst).Nodup) :
    ((upsert m k e).map Prod.fst).Nodup := by
  rw [upsert_keys]
  by_cases hm : k ∈ m.map Prod.fst
  · rw [if_pos hm]; exact h
  · rw [if_neg hm]
    refine List.Nodup.append h (List.nodup_singleton k) ?_
    intro a ha hb
    rcases List.mem_singleton.mp hb with rfl
    exact hm ha

theorem buildExisting_keys_nodup (keyFn : String → String)
    (tabs : List TabInfo) :
    ((buildExisting keyFn tabs).map Prod.fst).Nodup := by
  unfold buildExisting
  have hgen : ∀ (acc : List (String × List PinEntry)),
      (acc.map Prod.fst).Nodup →
      ((tabs.foldl (buildStep keyFn) acc).map Prod.fst).Nodup := by
    induction tabs with
    | nil => intro acc h; exact h
    | cons t rest ih =>
      intro acc h
      rw [List.foldl_cons]
      apply ih
      unfold buildStep
      by_cases hs : isSyncableUrl (getTabUrl t)
      · rw [if_pos hs]; exact upsert_keys_nodup _ _ _ h
      · rw [if_neg hs]; exact h
  exact hgen [] List.nodup_nil

theorem groupOf_cons_yes (keyFn : String → String) (t : TabInfo)
    (rest : List TabInfo) (k : String)
    (hs : isSyncableUrl (getTabUrl t) = true)
    (hk : keyFn (normalizeUrl (getTabUrl t)) = k) :
    groupOf keyFn (t :: rest) k =
      ⟨t.id, normalizeUrl (getTabUrl t)⟩ :: groupOf keyFn rest k := by
  conv => lhs; unfold groupOf
  rw [if_pos hs, if_pos hk]

theorem groupOf_cons_noKey (keyFn : String → String) (t : TabInfo)
    (rest : List TabInfo) (k : String)
    (hs : isSyncableUrl (getTabUrl t) = true)
    (hk : ¬ keyFn (normalizeUrl (getTabUrl t)) = k) :
    groupOf keyFn (t :: rest) k = groupOf keyFn rest k := by
  conv => lhs; unfold groupOf
  rw [if_pos hs, if_neg hk]

theorem groupOf_cons_noSync (keyFn : String → String) (t : TabInfo)
    (rest : List TabInfo) (k : String)
    (hs : ¬ isSyncableUrl (getTabUrl t) = true) :
    groupOf keyFn (t :: rest) k = groupOf keyFn rest k := by
  conv => lhs; unfold groupOf
  rw [if_neg hs]

theorem buildStep_yes (keyFn : String → String)
    (m : List (String × List PinEntry)) (t : TabInfo)
    (hs : isSyncableUrl (getTabUrl t) = true) :
    buildStep keyFn m t =
      upsert m (keyFn (normalizeUrl (getTabUrl t)))
        ⟨t.id, normalizeUrl (getTabUrl t)⟩ := by
  unfold buildStep
  rw [if_pos hs]

theorem buildStep_no (keyFn : String → String)
    (m : List (String × List PinEntry)) (t : TabInfo)
    (hs : ¬ isSyncableUrl (getTabUrl t) = true) :
    buildStep keyFn m t = m := by
  unfold buildStep
  rw [if_neg hs]

theorem buildExisting_go (keyFn : String → String) (tabs : List TabInfo)
    (acc : List (String × List PinEntry)) (k : String) :
    alistGet k (tabs.foldl (buildStep keyFn) acc) =
      match alistGet k acc with
      | none =>
        if groupOf keyFn tabs k = [] then none else some (groupOf keyFn tabs k)
      | some es => some (es ++ groupOf keyFn tabs k) := by
  induction tabs generalizing acc with
  | nil =>
    rcases h : alistGet k acc with _ | es <;> simp [groupOf, h]
  | cons t rest ih =>
    rw [List.foldl_cons, ih]
    by_cases hs : isSyncableUrl (getTabUrl t)
    · by_cases hk : keyFn (normalizeUrl (getTabUrl t)) = k
      · rw [buildStep_yes keyFn acc t hs, hk, upsert_get_same]
        rw [groupOf_cons_yes keyFn t rest k hs hk]
        rcases h : alistGet k acc with _ | es
        · simp [h]
        · simp [h]
      · rw [buildStep_yes keyFn acc t hs,
          upsert_get_other _ _ _ _ (fun he => hk he.symm)]
        rw [groupOf_cons_noKey keyFn t rest k hs hk]
    · rw [buildStep_no keyFn acc t hs, groupOf_cons_noSync keyFn t rest k hs]

theorem alistGet_buildExisting (keyFn : String → String) (tabs : List TabInfo)
    (k : String) :
    alistGet k (buildExisting keyFn tabs) =
      if groupOf keyFn tabs k = [] then none
      else some (groupOf keyFn tabs k) := by
  unfold buildExisting
  rw [buildExisting_go]
  simp [alistGet]

theorem mem_buildExisting (keyFn : String → String) (tabs : List TabInfo)
    (k : String) (g : List PinEntry) (h : (k, g) ∈ buildExisting keyFn tabs) :
    g = groupOf keyFn tabs k ∧ g ≠ [] := by
  have hget := mem_alistGet k g _ (buildExisting_keys_nodup keyFn tabs) h
  rw [alistGet_buildExisting] at hget
  by_cases he : groupOf keyFn tabs k = []
  · rw [if_pos he] at hget; cases hget
  · rw [if_neg he] at hget
    cases hget
    exact ⟨rfl, he⟩

theorem groupOf_mem_exists (keyFn : String → String) (tabs : List TabInfo)
    (k : String) (e : PinEntry) (h : e ∈ groupOf keyFn tabs k) :
    ∃ t ∈ tabs, isSyncableUrl (getTabUrl t) = true
      ∧ keyFn (normalizeUrl (getTabUrl t)) = k
      ∧ e = ⟨t.id, normalizeUrl (getTabUrl t)⟩ := by
  induction tabs with
  | nil => cases h
  | cons t rest ih =>
    unfold groupOf at h
    by_cases hs : isSyncableUrl (getTabUrl t)
    · rw [if_pos hs] at h
      by_cases hk : keyFn (normalizeUrl (getTabUrl t)) = k
      · rw [if_pos hk] at h
        rcases List.mem_cons.mp h with rfl | hm
        · exact ⟨t, List.mem_cons_self _ _, hs, hk, rfl⟩
        · rcases ih hm with ⟨t', ht', rest'⟩
          exact ⟨t', List.mem_cons_of_mem _ ht', rest'⟩
      · rw [if_neg hk] at h
        rcases ih h with ⟨t', ht', rest'⟩
        exact ⟨t', List.mem_cons_of_mem _ ht', rest'⟩
    · rw [if_neg hs] at h
      rcases ih h with ⟨t', ht', rest'⟩
      exact ⟨t', List.mem_cons_of_mem _ ht', rest'⟩

theorem mem_groupOf (keyFn : String → String) (tabs : List TabInfo)
    (t : TabInfo) (ht : t ∈ tabs) (hs : isSyncableUrl (getTabUrl t) = true) :
    (⟨t.id, normalizeUrl (getTabUrl t)⟩ : PinEntry)
      ∈ groupOf keyFn tabs (keyFn (normalizeUrl (getTabUrl t))) := by
  induction tabs with
  | nil => cases ht
  | cons t0 rest ih =>
    unfold groupOf
    rcases List.mem_cons.mp ht with rfl | hm
    · rw [if_pos hs, if_pos rfl]
      exact List.mem_cons_self _ _
    · by_cases hs0 : isSyncableUrl (getTabUrl t0)
      · rw [if_pos hs0]
        by_cases hk : keyFn (normalizeUrl (getTabUrl t0))
            = keyFn (normalizeUrl (getTabUrl t))
        · rw [if_pos hk]
          exact List.mem_cons_of_mem _ (ih hm)
        · rw [if_neg hk]
          exact ih hm
      · rw [if_neg hs0]
        exact ih hm

theorem groupOf_ids_sublist (keyFn : String → String) (tabs : List TabInfo)
    (k : String) :
    ((groupOf keyFn tabs k).map PinEntry.id).Sublist (tabs.map TabInfo.id) := by
  induction tabs with
  | nil => simp [groupOf]
  | cons t rest ih =>
    unfold groupOf
    by_cases hs : isSyncableUrl (getTabUrl t)
    · rw [if_pos hs]
      by_cases hk : keyFn (normalizeUrl (getTabUrl t)) = k
      · rw [if_pos hk]
        simpa using List.Sublist.cons₂ t.id ih
      · rw [if_neg hk]
        exact List.Sublist.cons t.id ih
    · rw [if_neg hs]
      exact List.Sublist.cons t.id ih


/-! ### Sorting lemmas -/

theorem stableSortStrings_perm (xs : List String) :
    (stableSortStrings xs).Perm xs :=
  List.perm_insertionSort _ xs

theorem charEq_of_toNat_eq (a b : Char) (h : a.toNat = b.toNat) : a = b := by
  apply Char.eq_of_val_eq
  apply UInt32.eq_of_toBitVec_eq
  apply BitVec.eq_of_toNat_eq
  exact h

theorem strLeChars_total : ∀ as bs : List Char,
    strLeChars as bs = true ∨ strLeChars bs as = true := by
  intro as
  induction as with
  | nil => intro bs; left; rfl
  | cons a as ih =>
    intro bs
    cases bs with
    | nil => right; rfl
    | cons b bs =>
      simp only [strLeChars]
      by_cases hab : a.toNat < b.toNat
      · left; rw [if_pos hab]
      · by_cases hba : b.toNat < a.toNat
        · right; rw [if_pos hba]
        · rw [if_neg hab, if_neg hba, if_neg hba, if_neg hab]
          exact ih bs

theorem strLeChars_trans : ∀ as bs cs : List Char,
    strLeChars as bs = true → strLeChars bs cs = true →
    strLeChars as cs = true := by
  intro as
  induction as with
  | nil => intro bs cs h1 h2; rfl
  | cons a as ih =>
    intro bs cs h1 h2
    cases bs with
    | nil => exact absurd h1 (by simp [strLeChars])
    | cons b bs =>
      cases cs with
      | nil => exact absurd h2 (by simp [strLeChars])
      | cons c cs =>
        simp only [strLeChars] at h1 h2 ⊢
        by_cases hab : a.toNat < b.toNat
        · by_cases hbc : b.toNat < c.toNat
          · rw [if_pos (by omega)]
          · rw [if_neg hbc] at h2
            by_cases hcb : c.toNat < b.toNat
            · rw [if_pos hcb] at h2; cases h2
            · rw [if_pos (by omega)]
        · rw [if_neg hab] at h1
          by_cases hba : b.toNat < a.toNat
          · rw [if_pos hba] at h1; cases h1
          · rw [if_neg hba] at h1
            by_cases hbc : b.toNat < c.toNat
            · rw [if_pos (by omega)]
            · rw [if_neg hbc] at h2
              by_cases hcb : c.toNat < b.toNat
              · rw [if_pos hcb] at h2; cases h2
              · rw [if_neg hcb] at h2
                rw [if_neg (by omega), if_neg (by omega)]
                exact ih bs cs h1 h2

theorem strLeChars_antisymm : ∀ as bs : List Char,
    strLeChars as bs = true → strLeChars bs as = true → as = bs := by
  intro as
  induction as with
  | nil =>
    intro bs h1 h2
    cases bs with
    | nil => rfl
    | cons b bs => exact absurd h2 (by simp [strLeChars])
  | cons a as ih =>
    intro bs h1 h2
    cases bs with
    | nil => exact absurd h1 (by simp [strLeChars])
    | cons b bs =>
      simp only [strLeChars] at h1 h2
      by_cases hab : a.toNat < b.toNat
      · rw [if_neg (by omega), if_pos hab] at h2
        cases h2
      · by_cases hba : b.toNat < a.toNat
        · rw [if_neg hab, if_pos hba] at h1
          cases h1
        · rw [if_neg hab, if_neg hba] at h1
          rw [if_neg hba, if_neg hab] at h2
          rw [charEq_of_toNat_eq a b (by omega), ih bs h1 h2]

instance : IsTotal String (fun a b => strLe a b = true) :=
  ⟨fun a b => strLeChars_total a.data b.data⟩

instance : IsTrans String (fun a b => strLe a b = true) :=
  ⟨fun a b c h1 h2 => strLeChars_trans a.data b.data c.data h1 h2⟩

instance : IsAntisymm String (fun a b => strLe a b = true) :=
  ⟨fun a b h1 h2 =>
    String.toList_inj.mp (strLeChars_antisymm a.data b.data h1 h2)⟩

theorem stableSortStrings_sorted (xs : List String) :
    (stableSortStrings xs).Sorted (fun a b => strLe a b = true) :=
  List.sorted_insertionSort _ xs

theorem stableSortStrings_eq_of_perm (xs ys : List String) (h : xs.Perm ys) :
    stableSortStrings xs = stableSortStrings ys := by
  refine List.eq_of_perm_of_sorted ?_ (stableSortStrings_sorted xs)
    (stableSortStrings_sorted ys)
  exact ((stableSortStrings_perm xs).trans h).trans
    (stableSortStrings_perm ys).symm

theorem stableSortStrings_nodup (xs : List String) (h : xs.Nodup) :
    (stableSortStrings xs).Nodup :=
  (stableSortStrings_perm xs).nodup_iff.mpr h

theorem mem_stableSortStrings (xs : List String) (k : String) :
    k ∈ stableSortStrings xs ↔ k ∈ xs :=
  (stableSortStrings_perm xs).mem_iff

/-! ### Purge-loop lemmas -/

theorem mem_purgeLoop (m : List (String × String))
    (ex : List (String × List PinEntry)) (k : String) (g : List PinEntry)
    (hmem : (k, g) ∈ ex) (hnot : mapHas m k = false) (e : PinEntry)
    (he : e ∈ g) : e.id ∈ purgeLoop m ex := by
  induction ex with
  | nil => cases hmem
  | cons kv rest ih =>
    obtain ⟨k0, g0⟩ := kv
    unfold purgeLoop
    rcases List.mem_cons.mp hmem with heq | hm
    · cases heq
      rw [hnot]
      simp only [Bool.false_eq_true, if_false]
      exact List.mem_append_left _ (List.mem_map.mpr ⟨e, he, rfl⟩)
    · exact List.mem_append_right _ (ih hm)

theorem purgeLoop_mem (m : List (String × String))
    (ex : List (String × List PinEntry)) (i : Nat)
    (h : i ∈ purgeLoop m ex) :
    ∃ k g, (k, g) ∈ ex ∧ mapHas m k = false ∧ ∃ e ∈ g, e.id = i := by
  induction ex with
  | nil => cases h
  | cons kv rest ih =>
    obtain ⟨k0, g0⟩ := kv
    unfold purgeLoop at h
    rcases List.mem_append.mp h with h1 | h1
    · by_cases hm : mapHas m k0
      · rw [if_pos hm] at h1; cases h1
      · rw [if_neg hm] at h1
        rcases List.mem_map.mp h1 with ⟨e, he, rfl⟩
        exact ⟨k0, g0, List.mem_cons_self _ _,
          Bool.not_eq_true _ ▸ eq_false_of_ne_true hm, e, he, rfl⟩
    · rcases ih h1 with ⟨k, g, hmem, hnot, hsrc⟩
      exact ⟨k, g, List.mem_cons_of_mem _ hmem, hnot, hsrc⟩

theorem purgeLoop_filter_nil (m : List (String × String))
    (ex : List (String × List PinEntry)) (p : Nat → Bool)
    (hout : ∀ k' g', (k', g') ∈ ex → mapHas m k' = false →
        ∀ e ∈ g', p e.id = false) :
    (purgeLoop m ex).filter p = [] := by
  induction ex with
  | nil => rfl
  | cons kv rest ih =>
    obtain ⟨k0, g0⟩ := kv
    unfold purgeLoop
    rw [List.filter_append]
    rw [ih (fun k' g' hm => hout k' g' (List.mem_cons_of_mem _ hm))]
    by_cases hm : mapHas m k0
    · rw [if_pos hm]; rfl
    · rw [if_neg hm]
      rw [List.append_nil]
      apply List.filter_eq_nil_iff.mpr
      intro i hi
      rcases List.mem_map.mp hi with ⟨e, he, rfl⟩
      rw [hout k0 g0 (List.mem_cons_self _ _)
        (Bool.not_eq_true _ ▸ eq_false_of_ne_true hm) e he]
      exact Bool.false_ne_true

/-! ### Core plan-loop lemmas -/

namespace Core

theorem planKeys_core_create_mem (m : List (String × String))
    (ex : List (String × List PinEntry)) (ks : List String) (c : CreateItem)
    (h : c ∈ (planKeys m ex ks).1) :
    c.key ∈ ks ∧ c.url = alistGet c.key m := by
  induction ks with
  | nil => cases h
  | cons k ks ih =>
    unfold planKeys at h
    by_cases he : (alistGet k ex).getD [] = []
    · rw [if_pos he] at h
      rcases List.mem_cons.mp h with rfl | hm
      · exact ⟨List.mem_cons_self _ _, rfl⟩
      · rcases ih hm with ⟨h1, h2⟩
        exact ⟨List.mem_cons_of_mem _ h1, h2⟩
    · rw [if_neg he] at h
      rcases ih h with ⟨h1, h2⟩
      exact ⟨List.mem_cons_of_mem _ h1, h2⟩

theorem planKeys_core_rem_src (m : List (String × String))
    (ex : List (String × List PinEntry)) (ks : List String) (i : Nat)
    (h : i ∈ (planKeys m ex ks).2) :
    ∃ k ∈ ks, ∃ g, alistGet k ex = some g ∧ ∃ e ∈ g.drop 1, e.id = i := by
  induction ks with
  | nil => cases h
  | cons k ks ih =>
    unfold planKeys at h
    by_cases he : (alistGet k ex).getD [] = []
    · rw [if_pos he] at h
      rcases ih h with ⟨k', h1, rest⟩
      exact ⟨k', List.mem_cons_of_mem _ h1, rest⟩
    · rw [if_neg he] at h
      rcases List.mem_append.mp h with h1 | h1
      · rcases hg : alistGet k ex with _ | g
        · rw [hg] at he; exact absurd rfl he
        · rw [hg] at h1 he
          rcases List.mem_map.mp h1 with ⟨e, hme, rfl⟩
          exact ⟨k, List.mem_cons_self _ _, g, hg, e, hme, rfl⟩
      · rcases ih h1 with ⟨k', h2, rest⟩
        exact ⟨k', List.mem_cons_of_mem _ h2, rest⟩

theorem planKeys_rem_filter_nil (m : List (String × String))
    (ex : List (String × List PinEntry)) (p : Nat → Bool) (ks : List String)
    (hout : ∀ k' ∈ ks, ∀ g', alistGet k' ex = some g' →
        ∀ e ∈ g', p e.id = false) :
    ((planKeys m ex ks).2).filter p = [] := by
  induction ks with
  | nil => rfl
  | cons k ks ih =>
    unfold planKeys
    have ihout : ∀ k' ∈ ks, ∀ g', alistGet k' ex = some g' →
        ∀ e ∈ g', p e.id = false :=
      fun k' hk' => hout k' (List.mem_cons_of_mem _ hk')
    by_cases he : (alistGet k ex).getD [] = []
    · rw [if_pos he]
      exact ih ihout
    · rw [if_neg he]
      rw [List.filter_append, ih ihout, List.append_nil]
      apply List.filter_eq_nil_iff.mpr
      intro i hi
      rcases List.mem_map.mp hi with ⟨e, hme, rfl⟩
      rcases hg : alistGet k ex with _ | g
      · rw [hg] at he; exact absurd rfl he
      · rw [hg] at hme
        rw [hout k (List.mem_cons_self _ _) g hg e
          (List.drop_subset 1 g hme)]
        exact Bool.false_ne_true

theorem planKeys_rem_filter (m : List (String × String))
    (ex : List (String × List PinEntry)) (g : List PinEntry) (k : String)
    (p : Nat → Bool)
    (hp : ∀ i, p i = true ↔ i ∈ g.map PinEntry.id)
    (hg : alistGet k ex = some g) (hgne : g ≠ [])
    (hdisj : ∀ k', k' ≠ k → ∀ g', alistGet k' ex = some g' →
        ∀ e ∈ g', e.id ∉ g.map PinEntry.id) :
    ∀ ks : List String, ks.Nodup → k ∈ ks →
      ((planKeys m ex ks).2).filter p = (g.map PinEntry.id).drop 1 := by
  intro ks
  induction ks with
  | nil => intro _ hk; cases hk
  | cons k0 ks ih =>
    intro hnd hk
    have hnd' := List.nodup_cons.mp hnd
    by_cases hk0 : k0 = k
    · subst hk0
      unfold planKeys
      rw [show alistGet k0 ex = some g from hg]
      have hne : ¬ (some g).getD ([] : List PinEntry) = [] := by
        simpa using hgne
      rw [if_neg hne]
      rw [List.filter_append]
      have hrest : ((planKeys m ex ks).2).filter p = [] := by
        apply planKeys_rem_filter_nil
        intro k' hk' g' hg' e he
        have hk'ne : k' ≠ k0 := fun heq => hnd'.1 (heq ▸ hk')
        have := hdisj k' hk'ne g' hg' e he
        rcases hb : p e.id with _ | _
        · rfl
        · exact absurd ((hp e.id).mp hb) this
      rw [hrest, List.append_nil]
      have hkeep : ∀ i ∈ ((some g).getD [] |>.drop 1).map PinEntry.id,
          p i = true := by
        intro i hi
        rcases List.mem_map.mp hi with ⟨e, hme, rfl⟩
        exact (hp e.id).mpr
          (List.mem_map.mpr ⟨e, List.drop_subset 1 g hme, rfl⟩)
      rw [List.filter_eq_self.mpr hkeep]
      cases g with
      | nil => exact absurd rfl hgne
      | cons e0 es => simp
    · rcases List.mem_cons.mp hk with heq | hk'
      · exact absurd heq.symm hk0
      · unfold planKeys
        by_cases he : (alistGet k0 ex).getD [] = []
        · rw [if_pos he]
          exact ih hnd'.2 hk'
        · rw [if_neg he]
          rw [List.filter_append, ih hnd'.2 hk']
          have hnil : (((alistGet k0 ex).getD [] |>.drop 1).map
              PinEntry.id).filter p = [] := by
            apply List.filter_eq_nil_iff.mpr
            intro i hi
            rcases List.mem_map.mp hi with ⟨e, hme, rfl⟩
            rcases hg0 : alistGet k0 ex with _ | g0
            · rw [hg0] at he; exact absurd rfl he
            · rw [hg0] at hme
              have := hdisj k0 hk0 g0 hg0 e (List.drop_subset 1 g0 hme)
              rcases hb : p e.id with _ | _
              · exact Bool.false_ne_true
              · exact absurd ((hp e.id).mp hb) this
          rw [hnil]
          rfl

end Core


/-! ### Variant plan-loop lemmas -/

namespace Variant

theorem planKeys_variant_create_mem (m : List (String × String))
    (ex : List (String × List PinEntry)) (ks : List String) (c : CreateItem)
    (h : c ∈ (planKeys m ex ks).1) :
    c.key ∈ ks ∧ c.url = alistGet c.key m := by
  induction ks with
  | nil => cases h
  | cons k ks ih =>
    simp only [planKeys] at h
    split at h
    · rcases List.mem_cons.mp h with rfl | hm
      · exact ⟨List.mem_cons_self _ _, rfl⟩
      · rcases ih hm with ⟨h1, h2⟩
        exact ⟨List.mem_cons_of_mem _ h1, h2⟩
    · rcases List.mem_cons.mp h with rfl | hm
      · exact ⟨List.mem_cons_self _ _, rfl⟩
      · rcases ih hm with ⟨h1, h2⟩
        exact ⟨List.mem_cons_of_mem _ h1, h2⟩
    · rcases ih h with ⟨h1, h2⟩
      exact ⟨List.mem_cons_of_mem _ h1, h2⟩

theorem planKeys_upd_mem (m : List (String × String))
    (ex : List (String × List PinEntry)) (ks : List String) (u : UpdateItem)
    (h : u ∈ (planKeys m ex ks).2.1) :
    ∃ k ∈ ks, ∃ keep dups, alistGet k ex = some (keep :: dups)
      ∧ u.tabId = keep.id ∧ alistGet k m = some u.url := by
  induction ks with
  | nil => cases h
  | cons k ks ih =>
    simp only [planKeys] at h
    split at h
    · rcases ih h with ⟨k', h1, rest⟩
      exact ⟨k', List.mem_cons_of_mem _ h1, rest⟩
    · rcases ih h with ⟨k', h1, rest⟩
      exact ⟨k', List.mem_cons_of_mem _ h1, rest⟩
    case _ keep dups hg =>
      rcases List.mem_append.mp h with h1 | h1
      · split at h1
        case _ target hm =>
          split at h1
          · rcases List.mem_singleton.mp h1 with rfl
            exact ⟨k, List.mem_cons_self _ _, keep, dups, hg, rfl, hm⟩
          · cases h1
        · cases h1
      · rcases ih h1 with ⟨k', h2, rest⟩
        exact ⟨k', List.mem_cons_of_mem _ h2, rest⟩

theorem planKeys_variant_rem_src (m : List (String × String))
    (ex : List (String × List PinEntry)) (ks : List String) (i : Nat)
    (h : i ∈ (planKeys m ex ks).2.2) :
    ∃ k ∈ ks, ∃ g, alistGet k ex = some g ∧ ∃ e ∈ g.drop 1, e.id = i := by
  induction ks with
  | nil => cases h
  | cons k ks ih =>
    simp only [planKeys] at h
    split at h
    · rcases ih h with ⟨k', h1, rest⟩
      exact ⟨k', List.mem_cons_of_mem _ h1, rest⟩
    · rcases ih h with ⟨k', h1, rest⟩
      exact ⟨k', List.mem_cons_of_mem _ h1, rest⟩
    case _ keep dups hg =>
      rcases List.mem_append.mp h with h1 | h1
      · rcases List.mem_map.mp h1 with ⟨e, hme, rfl⟩
        exact ⟨k, List.mem_cons_self _ _, keep :: dups, hg, e, hme, rfl⟩
      · rcases ih h1 with ⟨k', h2, rest⟩
        exact ⟨k', List.mem_cons_of_mem _ h2, rest⟩

end Variant

/-! ### Group disjointness under distinct tab ids -/

theorem groupOf_disjoint (keyFn : String → String) (tabs : List TabInfo)
    (hids : (tabs.map TabInfo.id).Nodup) (k k' : String) (hne : k ≠ k')
    (e e' : PinEntry) (he : e ∈ groupOf keyFn tabs k)
    (he' : e' ∈ groupOf keyFn tabs k') : e.id ≠ e'.id := by
  rcases groupOf_mem_exists _ _ _ _ he with ⟨t, ht, hs, hk, rfl⟩
  rcases groupOf_mem_exists _ _ _ _ he' with ⟨t', ht', hs', hk', rfl⟩
  intro heq
  have hpw : tabs.Pairwise (fun a b => a.id ≠ b.id) :=
    List.pairwise_map.mp hids
  by_cases htt : t = t'
  · subst htt
    exact hne (hk ▸ hk' ▸ rfl)
  · have hsym : Symmetric (fun (a b : TabInfo) => a.id ≠ b.id) :=
      fun a b hab he2 => hab he2.symm
    exact List.Pairwise.forall hsym hpw ht ht' htt heq

theorem groupOf_ids_nodup (keyFn : String → String) (tabs : List TabInfo)
    (hids : (tabs.map TabInfo.id).Nodup) (k : String) :
    ((groupOf keyFn tabs k).map PinEntry.id).Nodup :=
  hids.sublist (groupOf_ids_sublist keyFn tabs k)

/-! ### Congruence of the plan in the canonical map (extensional inputs) -/

theorem purgeLoop_congr (m₁ m₂ : List (String × String))
    (ex : List (String × List PinEntry))
    (h : ∀ k, alistGet k m₁ = alistGet k m₂) :
    purgeLoop m₁ ex = purgeLoop m₂ ex := by
  induction ex with
  | nil => rfl
  | cons kv rest ih =>
    obtain ⟨k0, g0⟩ := kv
    unfold purgeLoop
    rw [ih]
    unfold mapHas
    rw [h k0]

theorem planKeysCore_congr (m₁ m₂ : List (String × String))
    (ex : List (String × List PinEntry)) (ks : List String)
    (h : ∀ k, alistGet k m₁ = alistGet k m₂) :
    Core.planKeys m₁ ex ks = Core.planKeys m₂ ex ks := by
  induction ks with
  | nil => rfl
  | cons k ks ih =>
    unfold Core.planKeys
    rw [ih, h k]

theorem planKeysVariant_congr (m₁ m₂ : List (String × String))
    (ex : List (String × List PinEntry)) (ks : List String)
    (h : ∀ k, alistGet k m₁ = alistGet k m₂) :
    Variant.planKeys m₁ ex ks = Variant.planKeys m₂ ex ks := by
  induction ks with
  | nil => rfl
  | cons k ks ih =>
    unfold Variant.planKeys
    rw [ih, h k]


/-! ### Plan projections and shared helpers -/

theorem Core.plan_core_create (tabs : List TabInfo) (m : List (String × String)) :
    (Core.computePinnedWindowPlan tabs m).create =
      (Core.planKeys m (buildExisting Core.canonicalKeyForUrl tabs)
        (stableSortStrings (m.map Prod.fst))).1 := rfl

theorem Core.plan_core_update (tabs : List TabInfo) (m : List (String × String)) :
    (Core.computePinnedWindowPlan tabs m).update = [] := rfl

theorem Core.plan_core_rem (tabs : List TabInfo) (m : List (String × String)) :
    (Core.computePinnedWindowPlan tabs m).removeTabIds =
      (Core.planKeys m (buildExisting Core.canonicalKeyForUrl tabs)
        (stableSortStrings (m.map Prod.fst))).2
      ++ purgeLoop m (buildExisting Core.canonicalKeyForUrl tabs) := rfl

theorem Variant.plan_variant_create (tabs : List TabInfo) (m : List (String × String)) :
    (Variant.computePinnedWindowPlan tabs m).create =
      (Variant.planKeys m (buildExisting Variant.canonicalKeyForUrl tabs)
        (stableSortStrings (m.map Prod.fst))).1 := rfl

theorem Variant.plan_variant_update (tabs : List TabInfo) (m : List (String × String)) :
    (Variant.computePinnedWindowPlan tabs m).update =
      (Variant.planKeys m (buildExisting Variant.canonicalKeyForUrl tabs)
        (stableSortStrings (m.map Prod.fst))).2.1 := rfl

theorem Variant.plan_variant_rem (tabs : List TabInfo) (m : List (String × String)) :
    (Variant.computePinnedWindowPlan tabs m).removeTabIds =
      (Variant.planKeys m (buildExisting Variant.canonicalKeyForUrl tabs)
        (stableSortStrings (m.map Prod.fst))).2.2
      ++ purgeLoop m (buildExisting Variant.canonicalKeyForUrl tabs) := rfl

/-- Every id in the keep-existing plan's `removeTabIds` is the id of some
syncable input tab. -/
theorem Core.plan_rem_src (tabs : List TabInfo) (m : List (String × String))
    (i : Nat) (h : i ∈ (Core.computePinnedWindowPlan tabs m).removeTabIds) :
    ∃ t' ∈ tabs, isSyncableUrl (getTabUrl t') = true ∧ t'.id = i := by
  rw [Core.plan_core_rem] at h
  rcases List.mem_append.mp h with h1 | h1
  · rcases Core.planKeys_core_rem_src _ _ _ _ h1 with ⟨k, _, g, hg, e, he, rfl⟩
    rw [alistGet_buildExisting] at hg
    by_cases h0 : groupOf Core.canonicalKeyForUrl tabs k = []
    · rw [if_pos h0] at hg; cases hg
    · rw [if_neg h0] at hg
      cases hg
      rcases groupOf_mem_exists _ _ _ e (List.drop_subset 1 _ he)
        with ⟨t', ht', hs, _, rfl⟩
      exact ⟨t', ht', hs, rfl⟩
  · rcases purgeLoop_mem _ _ _ h1 with ⟨k, g, hmem, _, e, he, rfl⟩
    obtain ⟨hgeq, _⟩ := mem_buildExisting _ _ _ _ hmem
    rw [hgeq] at he
    rcases groupOf_mem_exists _ _ _ e he with ⟨t', ht', hs, _, rfl⟩
    exact ⟨t', ht', hs, rfl⟩

/-! ### Claim theorems -/

/-- Claim C8: under the keep-existing policy of `src/core.js`, the plan's
`update` list returned by `computePinnedWindowPlan` is empty for every
input list of pinned-tab descriptors and every canonical mapping —
reconciliation never retargets a kept instance. -/
theorem keep_existing_no_update (tabs : List TabInfo)
    (m : List (String × String)) :
    (Core.computePinnedWindowPlan tabs m).update = [] := rfl

/-- Claim C2: every instance whose identity key is absent from the
canonical mapping has its id in the plan's `removeTabIds` list.  An
instance here is a grouped (syncable) input tab; a key is assigned only
after the syncability filter. -/
theorem noncanonical_purged (tabs : List TabInfo)
    (m : List (String × String)) (t : TabInfo) (ht : t ∈ tabs)
    (hs : isSyncableUrl (getTabUrl t) = true)
    (hk : Core.canonicalKeyForUrl (normalizeUrl (getTabUrl t)) ∉ m.map Prod.fst) :
    t.id ∈ (Core.computePinnedWindowPlan tabs m).removeTabIds := by
  have hmem := mem_groupOf Core.canonicalKeyForUrl tabs t ht hs
  have hne : groupOf Core.canonicalKeyForUrl tabs
      (Core.canonicalKeyForUrl (normalizeUrl (getTabUrl t))) ≠ [] := by
    intro h0
    rw [h0] at hmem
    cases hmem
  have hget : alistGet (Core.canonicalKeyForUrl (normalizeUrl (getTabUrl t)))
      (buildExisting Core.canonicalKeyForUrl tabs)
      = some (groupOf Core.canonicalKeyForUrl tabs
          (Core.canonicalKeyForUrl (normalizeUrl (getTabUrl t)))) := by
    rw [alistGet_buildExisting, if_neg hne]
  have hhas : mapHas m (Core.canonicalKeyForUrl (normalizeUrl (getTabUrl t)))
      = false := by
    rcases hb : mapHas m (Core.canonicalKeyForUrl (normalizeUrl (getTabUrl t)))
      with _ | _
    · rfl
    · exact absurd ((mapHas_iff_mem _ _).mp hb) hk
  rw [Core.plan_core_rem]
  refine List.mem_append_right _ ?_
  exact mem_purgeLoop m _ _ _ (alistGet_mem _ _ _ hget) hhas
    ⟨t.id, normalizeUrl (getTabUrl t)⟩ hmem

/-- Claim C3: an input instance whose resolved target is not syncable
(not a valid http(s) URL) is invisible to the keep-existing plan: its id
is in neither `removeTabIds` nor `update` (which is empty), and every
`create` entry is a key/target pair drawn from the canonical mapping, not
from any instance. -/
theorem nonsyncable_invisible (tabs : List TabInfo)
    (m : List (String × String)) (t : TabInfo) (ht : t ∈ tabs)
    (hs : isSyncableUrl (getTabUrl t) = false)
    (hids : (tabs.map TabInfo.id).Nodup) :
    t.id ∉ (Core.computePinnedWindowPlan tabs m).removeTabIds
    ∧ (Core.computePinnedWindowPlan tabs m).update = []
    ∧ ∀ c ∈ (Core.computePinnedWindowPlan tabs m).create,
        c.key ∈ m.map Prod.fst ∧ c.url = alistGet c.key m := by
  refine ⟨?_, rfl, ?_⟩
  · intro hmem
    rcases Core.plan_rem_src tabs m _ hmem with ⟨t', ht', hs', hid⟩
    have htt : t' ≠ t := by
      intro he
      rw [he] at hs'
      exact Bool.noConfusion (hs'.symm.trans hs)
    have hpw : tabs.Pairwise (fun a b => a.id ≠ b.id) :=
      List.pairwise_map.mp hids
    have hsym : Symmetric (fun (a b : TabInfo) => a.id ≠ b.id) :=
      fun a b hab he2 => hab he2.symm
    exact List.Pairwise.forall hsym hpw ht' ht htt hid
  · intro c hc
    rw [Core.plan_core_create] at hc
    rcases Core.planKeys_core_create_mem _ _ _ c hc with ⟨h1, h2⟩
    exact ⟨(mem_stableSortStrings _ _).mp h1, h2⟩

/-- Claim C4: `computePinnedWindowPlan` is deterministic and relies on no
unordered traversal: two canonical mappings with the same key set (in any
insertion order) and the same key-to-target lookups produce list-for-list
identical plans, in both engines.  (Identical calls are the special case
`m₁ = m₂`.) -/
theorem plan_deterministic (tabs : List TabInfo)
    (m₁ m₂ : List (String × String))
    (hperm : (m₁.map Prod.fst).Perm (m₂.map Prod.fst))
    (hget : ∀ k, alistGet k m₁ = alistGet k m₂) :
    Core.computePinnedWindowPlan tabs m₁ = Core.computePinnedWindowPlan tabs m₂
    ∧ Variant.computePinnedWindowPlan tabs m₁
      = Variant.computePinnedWindowPlan tabs m₂ := by
  have hks : stableSortStrings (m₁.map Prod.fst)
      = stableSortStrings (m₂.map Prod.fst) :=
    stableSortStrings_eq_of_perm _ _ hperm
  constructor
  · unfold Core.computePinnedWindowPlan
    dsimp only
    rw [hks, planKeysCore_congr m₁ m₂ _ _ hget, purgeLoop_congr m₁ m₂ _ hget]
  · unfold Variant.computePinnedWindowPlan
    dsimp only
    rw [hks, planKeysVariant_congr m₁ m₂ _ _ hget, purgeLoop_congr m₁ m₂ _ hget]


/-- Claim C5: with pairwise distinct instance ids, an instance id never
occurs in both `update` and `removeTabIds`, and `create` carries only
key/target pairs read off the canonical mapping, never an instance id.
`src/core.js` keeps `update` empty, so the disjointness content lies in
the variant engine; both are covered. -/
theorem instance_lists_disjoint (tabs : List TabInfo)
    (m : List (String × String)) (hids : (tabs.map TabInfo.id).Nodup) :
    ((Core.computePinnedWindowPlan tabs m).update = []
      ∧ ∀ c ∈ (Core.computePinnedWindowPlan tabs m).create,
          c.key ∈ m.map Prod.fst ∧ c.url = alistGet c.key m)
    ∧ (∀ u ∈ (Variant.computePinnedWindowPlan tabs m).update,
        u.tabId ∉ (Variant.computePinnedWindowPlan tabs m).removeTabIds)
    ∧ ∀ c ∈ (Variant.computePinnedWindowPlan tabs m).create,
        c.key ∈ m.map Prod.fst ∧ c.url = alistGet c.key m := by
  refine ⟨⟨rfl, ?_⟩, ?_, ?_⟩
  · intro c hc
    rw [Core.plan_core_create] at hc
    rcases Core.planKeys_core_create_mem _ _ _ c hc with ⟨h1, h2⟩
    exact ⟨(mem_stableSortStrings _ _).mp h1, h2⟩
  · intro u hu hmem
    rw [Variant.plan_variant_update] at hu
    rcases Variant.planKeys_upd_mem _ _ _ _ hu with ⟨k, hk, keep, dups, hg, hid, _⟩
    rw [alistGet_buildExisting] at hg
    by_cases h0 : groupOf Variant.canonicalKeyForUrl tabs k = []
    · rw [if_pos h0] at hg; cases hg
    rw [if_neg h0] at hg
    have hgeq : groupOf Variant.canonicalKeyForUrl tabs k = keep :: dups :=
      Option.some.inj hg
    have hkeepmem : keep ∈ groupOf Variant.canonicalKeyForUrl tabs k := by
      rw [hgeq]
      exact List.mem_cons_self _ _
    have hkhas : mapHas m k = true :=
      (mapHas_iff_mem m k).mpr ((mem_stableSortStrings _ _).mp hk)
    rw [Variant.plan_variant_rem] at hmem
    rcases List.mem_append.mp hmem with h1 | h1
    · rcases Variant.planKeys_variant_rem_src _ _ _ _ h1 with ⟨k', _, g', hg', e, he, heid⟩
      rw [alistGet_buildExisting] at hg'
      by_cases h0' : groupOf Variant.canonicalKeyForUrl tabs k' = []
      · rw [if_pos h0'] at hg'; cases hg'
      rw [if_neg h0'] at hg'
      have hgeq' : groupOf Variant.canonicalKeyForUrl tabs k' = g' :=
        Option.some.inj hg'
      by_cases hkk : k' = k
      · subst hkk
        have hgd : g' = keep :: dups := hgeq'.symm.trans hgeq
        rw [hgd] at he
        have he2 : e ∈ dups := by simpa using he
        have hnd := groupOf_ids_nodup Variant.canonicalKeyForUrl tabs hids k'
        rw [hgeq, List.map_cons, List.nodup_cons] at hnd
        exact hnd.1 (List.mem_map.mpr ⟨e, he2, heid.trans hid⟩)
      · have hke : e ∈ groupOf Variant.canonicalKeyForUrl tabs k' := by
          rw [hgeq']
          exact List.drop_subset 1 _ he
        exact groupOf_disjoint Variant.canonicalKeyForUrl tabs hids k' k hkk
          e keep hke hkeepmem (heid.trans hid)
    · rcases purgeLoop_mem _ _ _ h1 with ⟨k'', g'', hmem'', hnot, e, he, heid⟩
      obtain ⟨hgeq'', _⟩ := mem_buildExisting _ _ _ _ hmem''
      have hk''ne : k'' ≠ k := by
        intro he2
        subst he2
        rw [hkhas] at hnot
        cases hnot
      rw [hgeq''] at he
      exact groupOf_disjoint Variant.canonicalKeyForUrl tabs hids k'' k hk''ne
        e keep he hkeepmem (heid.trans hid)
  · intro c hc
    rw [Variant.plan_variant_create] at hc
    rcases Variant.planKeys_variant_create_mem _ _ _ c hc with ⟨h1, h2⟩
    exact ⟨(mem_stableSortStrings _ _).mp h1, h2⟩

/-- Claim C1 (amended): for an identity key that is present in the
canonical mapping and has N > 1 grouped instances, the ids of those
instances occurring in `removeTabIds` are exactly the N−1 ids after the
first (in input order), and the first instance's id is not removed.  (As
stated over every canonical mapping the claim fails: a key absent from
canonical has all N of its instances removed — see the counterexample.) -/
theorem dedup_first_kept (tabs : List TabInfo) (m : List (String × String))
    (k : String) (hids : (tabs.map TabInfo.id).Nodup)
    (hkeys : (m.map Prod.fst).Nodup) (hk : k ∈ m.map Prod.fst)
    (hN : 1 < (groupOf Core.canonicalKeyForUrl tabs k).length) :
    (Core.computePinnedWindowPlan tabs m).removeTabIds.filter
        (fun i => decide
          (i ∈ (groupOf Core.canonicalKeyForUrl tabs k).map PinEntry.id))
      = ((groupOf Core.canonicalKeyForUrl tabs k).map PinEntry.id).drop 1
    ∧ ∀ e, (groupOf Core.canonicalKeyForUrl tabs k).head? = some e →
        e.id ∉ (Core.computePinnedWindowPlan tabs m).removeTabIds := by
  have hgne : groupOf Core.canonicalKeyForUrl tabs k ≠ [] := by
    intro h0
    rw [h0] at hN
    simp at hN
  have hget : alistGet k (buildExisting Core.canonicalKeyForUrl tabs)
      = some (groupOf Core.canonicalKeyForUrl tabs k) := by
    rw [alistGet_buildExisting, if_neg hgne]
  have hp : ∀ i, (fun i => decide
        (i ∈ (groupOf Core.canonicalKeyForUrl tabs k).map PinEntry.id)) i = true
      ↔ i ∈ (groupOf Core.canonicalKeyForUrl tabs k).map PinEntry.id := by
    intro i
    simp
  have hdisj : ∀ k', k' ≠ k → ∀ g',
      alistGet k' (buildExisting Core.canonicalKeyForUrl tabs) = some g' →
      ∀ e ∈ g', e.id ∉ (groupOf Core.canonicalKeyForUrl tabs k).map
        PinEntry.id := by
    intro k' hkne g' hg' e he hmem
    rw [alistGet_buildExisting] at hg'
    by_cases h0' : groupOf Core.canonicalKeyForUrl tabs k' = []
    · rw [if_pos h0'] at hg'; cases hg'
    · rw [if_neg h0'] at hg'
      have hgeq' : groupOf Core.canonicalKeyForUrl tabs k' = g' :=
        Option.some.inj hg'
      rcases List.mem_map.mp hmem with ⟨e2, he2, heq⟩
      have hke : e ∈ groupOf Core.canonicalKeyForUrl tabs k' := by
        rw [hgeq']
        exact he
      exact groupOf_disjoint Core.canonicalKeyForUrl tabs hids k' k hkne
        e e2 hke he2 heq.symm
  have hfil := Core.planKeys_rem_filter m
    (buildExisting Core.canonicalKeyForUrl tabs)
    (groupOf Core.canonicalKeyForUrl tabs k) k _ hp hget hgne hdisj
    (stableSortStrings (m.map Prod.fst)) (stableSortStrings_nodup _ hkeys)
    ((mem_stableSortStrings _ _).mpr hk)
  have hpurge : (purgeLoop m (buildExisting Core.canonicalKeyForUrl
      tabs)).filter (fun i => decide
        (i ∈ (groupOf Core.canonicalKeyForUrl tabs k).map PinEntry.id))
      = [] := by
    apply purgeLoop_filter_nil
    intro k' g' hmem' hnot e he
    obtain ⟨hgeq', _⟩ := mem_buildExisting _ _ _ _ hmem'
    have hk'ne : k' ≠ k := by
      intro he2
      subst he2
      rw [(mapHas_iff_mem m k').mpr hk] at hnot
      cases hnot
    rw [hgeq'] at he
    rcases hb : decide
        (e.id ∈ (groupOf Core.canonicalKeyForUrl tabs k).map PinEntry.id)
      with _ | _
    · rfl
    · have hmm := of_decide_eq_true hb
      rcases List.mem_map.mp hmm with ⟨e2, he2, heq⟩
      exact absurd heq.symm
        (groupOf_disjoint Core.canonicalKeyForUrl tabs hids k' k hk'ne
          e e2 he he2)
  have hfull : (Core.computePinnedWindowPlan tabs m).removeTabIds.filter
      (fun i => decide
        (i ∈ (groupOf Core.canonicalKeyForUrl tabs k).map PinEntry.id))
      = ((groupOf Core.canonicalKeyForUrl tabs k).map PinEntry.id).drop 1 := by
    rw [Core.plan_core_rem, List.filter_append, hfil, hpurge, List.append_nil]
  refine ⟨hfull, ?_⟩
  intro e hhead hmem
  have hemem : e ∈ groupOf Core.canonicalKeyForUrl tabs k :=
    List.mem_of_mem_head? hhead
  have hidmem : e.id ∈ (groupOf Core.canonicalKeyForUrl tabs k).map
      PinEntry.id := List.mem_map.mpr ⟨e, hemem, rfl⟩
  have hin : e.id ∈ ((groupOf Core.canonicalKeyForUrl tabs k).map
      PinEntry.id).drop 1 := by
    rw [← hfull]
    exact List.mem_filter.mpr ⟨hmem, by simpa using hidmem⟩
  rcases hgl : groupOf Core.canonicalKeyForUrl tabs k with _ | ⟨a, tl⟩
  · exact hgne hgl
  · rw [hgl] at hhead
    have hae : a = e := by
      have := hhead
      simp only [List.head?] at this
      exact Option.some.inj this
    subst hae
    have hnd := groupOf_ids_nodup Core.canonicalKeyForUrl tabs hids k
    rw [hgl, List.map_cons, List.nodup_cons] at hnd
    rw [hgl, List.map_cons] at hin
    exact hnd.1 (by simpa using hin)


/-! ### Normalization and identity-key helpers -/

theorem normalizeUrl_of_none (s : String) (h : parseUrl s = none) :
    normalizeUrl s = s := by
  unfold normalizeUrl
  rw [h]

theorem normalizeUrl_of_some (s : String) (u : UrlModel)
    (h : parseUrl s = some u) :
    normalizeUrl s
      = renderUrlStr ⟨u.scheme, u.auth, u.path, u.query, none⟩ := by
  unfold normalizeUrl
  rw [h]

theorem dropFragment_canonical (u : UrlModel) (h : Canonical u) :
    Canonical ⟨u.scheme, u.auth, u.path, u.query, none⟩ := by
  obtain ⟨sch, a, p, q, f⟩ := u
  exact h

theorem originStr_dropFragment (u : UrlModel) :
    originStr ⟨u.scheme, u.auth, u.path, u.query, none⟩ = originStr u := by
  obtain ⟨sch, a, p, q, f⟩ := u
  rfl

theorem parse_normalizeUrl (s : String) (u : UrlModel)
    (h : parseUrl s = some u) :
    parseUrl (normalizeUrl s)
      = some ⟨u.scheme, u.auth, u.path, u.query, none⟩ := by
  rw [normalizeUrl_of_some s u h]
  have hc := parseChars_canonical s.data u h
  exact canonical_render_parse _ (dropFragment_canonical u hc)

theorem canonicalKey_of_none (s : String) (h : parseUrl s = none) :
    Core.canonicalKeyForUrl s = s := by
  unfold Core.canonicalKeyForUrl
  rw [normalizeUrl_of_none s h, h]

theorem canonicalKey_of_some (s : String) (u : UrlModel)
    (h : parseUrl s = some u) :
    Core.canonicalKeyForUrl s = "origin:" ++ originStr u := by
  unfold Core.canonicalKeyForUrl
  rw [parse_normalizeUrl s u h]
  show "origin:" ++ originStr ⟨u.scheme, u.auth, u.path, u.query, none⟩
    = "origin:" ++ originStr u
  rw [originStr_dropFragment]

/-- Claim C9: `normalizeUrl` parses its input; on success it returns the
reconstructed absolute URL with the fragment removed and the scheme,
authority (host and port), path and query intact — witnessed by the
reparse returning the same record minus its fragment; on parse failure it
returns the input unchanged. -/
theorem normalize_spec (s : String) :
    (parseUrl s = none → normalizeUrl s = s)
    ∧ ∀ u : UrlModel, parseUrl s = some u →
        normalizeUrl s = renderUrlStr ⟨u.scheme, u.auth, u.path, u.query, none⟩
        ∧ parseUrl (normalizeUrl s)
          = some ⟨u.scheme, u.auth, u.path, u.query, none⟩ :=
  ⟨normalizeUrl_of_none s, fun u hu =>
    ⟨normalizeUrl_of_some s u hu, parse_normalizeUrl s u hu⟩⟩

/-- Claim C10: in `src/core.js` the grouped (origin-level) identity policy
is universal: every parseable URL is keyed by `origin:` followed by its
origin (`scheme://host[:port]` for http(s) authority URLs), so any two
parseable URLs with equal origins share one key irrespective of path,
query or fragment; an unparseable string is its own key. -/
theorem origin_key_universal :
    (∀ s : String, parseUrl s = none → Core.canonicalKeyForUrl s = s)
    ∧ (∀ (s : String) (u : UrlModel), parseUrl s = some u →
        Core.canonicalKeyForUrl s = "origin:" ++ originStr u)
    ∧ (∀ (s₁ s₂ : String) (u₁ u₂ : UrlModel), parseUrl s₁ = some u₁ →
        parseUrl s₂ = some u₂ → originStr u₁ = originStr u₂ →
        Core.canonicalKeyForUrl s₁ = Core.canonicalKeyForUrl s₂)
    ∧ ∀ (u : UrlModel) (hst : List Char) (p : Option Nat),
        u.auth = some (hst, p) →
        originStr u
          = ⟨u.scheme ++ ':' :: '/' :: '/' :: (hst ++ renderOptPort p)⟩ := by
  refine ⟨canonicalKey_of_none, canonicalKey_of_some, ?_, ?_⟩
  · intro s₁ s₂ u₁ u₂ h₁ h₂ ho
    rw [canonicalKey_of_some s₁ u₁ h₁, canonicalKey_of_some s₂ u₂ h₂, ho]
  · intro u hst p hauth
    obtain ⟨sch, a, pth, q, f⟩ := u
    dsimp only at hauth ⊢
    subst hauth
    rfl


/-! ### Counterexamples, amended scenarios and witnesses -/

/-- Claim C1 counterexample: the key `origin:https://e.test` has N = 2
instances, yet with a canonical mapping not containing that key (here the
empty mapping) both ids land in `removeTabIds` — N of them, not N−1 — so
the claim fails as stated over every canonical mapping. -/
theorem dedup_claim_counterexample :
    ((groupOf Core.canonicalKeyForUrl
        [⟨1, some "https://e.test/a", none⟩, ⟨2, some "https://e.test/b", none⟩]
        "origin:https://e.test").map PinEntry.id = [1, 2])
    ∧ (Core.computePinnedWindowPlan
        [⟨1, some "https://e.test/a", none⟩, ⟨2, some "https://e.test/b", none⟩]
        []).removeTabIds = [1, 2]
    ∧ ¬ ((Core.computePinnedWindowPlan
        [⟨1, some "https://e.test/a", none⟩, ⟨2, some "https://e.test/b", none⟩]
        []).removeTabIds.filter
          (fun i => decide (i ∈ (groupOf Core.canonicalKeyForUrl
            [⟨1, some "https://e.test/a", none⟩,
              ⟨2, some "https://e.test/b", none⟩]
            "origin:https://e.test").map PinEntry.id))).length = 2 - 1 := by
  decide

/-- Claim C1 witness: with the key canonical and two instances, exactly
the second instance's id is removed. -/
theorem dedup_first_kept_witness :
    (Core.computePinnedWindowPlan
        [⟨1, some "https://e.test/a", none⟩, ⟨2, some "https://e.test/b", none⟩]
        [("origin:https://e.test", "https://e.test/a")]).removeTabIds.filter
      (fun i => decide (i ∈ (groupOf Core.canonicalKeyForUrl
          [⟨1, some "https://e.test/a", none⟩, ⟨2, some "https://e.test/b", none⟩]
          "origin:https://e.test").map PinEntry.id))
    = ((groupOf Core.canonicalKeyForUrl
        [⟨1, some "https://e.test/a", none⟩, ⟨2, some "https://e.test/b", none⟩]
        "origin:https://e.test").map PinEntry.id).drop 1 :=
  (dedup_first_kept
    [⟨1, some "https://e.test/a", none⟩, ⟨2, some "https://e.test/b", none⟩]
    [("origin:https://e.test", "https://e.test/a")] "origin:https://e.test"
    (by decide) (by decide) (by decide) (by decide)).1

/-- Claim C2 witness: a syncable instance whose origin key is not in the
(empty) canonical mapping is removed. -/
theorem noncanonical_purged_witness :
    (5 : Nat) ∈ (Core.computePinnedWindowPlan
      [⟨5, some "https://x.test/", none⟩] []).removeTabIds :=
  noncanonical_purged [⟨5, some "https://x.test/", none⟩] []
    ⟨5, some "https://x.test/", none⟩ (by decide) (by decide) (by decide)

/-- Claim C3 witness: a `chrome://settings` instance is not removed, for
an arbitrary canonical mapping. -/
theorem nonsyncable_invisible_witness :
    (9 : Nat) ∉ (Core.computePinnedWindowPlan
      [⟨9, some "chrome://settings", none⟩]
      [("https://a.test/", "https://a.test/")]).removeTabIds :=
  (nonsyncable_invisible [⟨9, some "chrome://settings", none⟩]
    [("https://a.test/", "https://a.test/")]
    ⟨9, some "chrome://settings", none⟩ (by decide) (by decide) (by decide)).1

/-- Claim C4 witness: permuting the canonical map's insertion order leaves
the keep-existing plan unchanged. -/
theorem plan_deterministic_witness :
    Core.computePinnedWindowPlan [⟨1, some "https://a.test/x", none⟩]
      [("ka", "https://a.test/"), ("kb", "https://b.test/")]
    = Core.computePinnedWindowPlan [⟨1, some "https://a.test/x", none⟩]
      [("kb", "https://b.test/"), ("ka", "https://a.test/")] :=
  (plan_deterministic [⟨1, some "https://a.test/x", none⟩]
    [("ka", "https://a.test/"), ("kb", "https://b.test/")]
    [("kb", "https://b.test/"), ("ka", "https://a.test/")]
    (List.Perm.swap "kb" "ka" [])
    (by
      intro k
      by_cases h1 : k = "ka"
      · subst h1; rfl
      · by_cases h2 : k = "kb"
        · subst h2; rfl
        · simp only [alistGet]
          rw [if_neg (fun he => h1 he.symm), if_neg (fun he => h2 he.symm),
            if_neg (fun he => h2 he.symm), if_neg (fun he => h1 he.symm)])).1

/-- Claim C5 witness: the kept Gemini instance retargeted by `update` is
not also removed. -/
theorem instance_lists_disjoint_witness :
    (1 : Nat) ∉ (Variant.computePinnedWindowPlan
      [⟨1, some "https://gemini.google.com/a", none⟩,
        ⟨2, some "https://gemini.google.com/b", none⟩]
      [("origin:https://gemini.google.com",
        "https://gemini.google.com/c")]).removeTabIds :=
  (instance_lists_disjoint
    [⟨1, some "https://gemini.google.com/a", none⟩,
      ⟨2, some "https://gemini.google.com/b", none⟩]
    [("origin:https://gemini.google.com", "https://gemini.google.com/c")]
    (by decide)).2.1 ⟨1, "https://gemini.google.com/c"⟩ (by decide)

/-- Claim C6 counterexample: `src/core.js` keys instances by origin, so
the exact-URL canonical keys of Scenario C never match: both keys are
created (a.test included) and the instance is removed, refuting the
claimed `create` list of exactly the b.test entry. -/
theorem pending_identity_counterexample :
    Core.computePinnedWindowPlan [⟨7, some "", some "https://a.test/"⟩]
      [("https://a.test/", "https://a.test/"),
        ("https://b.test/", "https://b.test/")]
    = ⟨[⟨"https://a.test/", some "https://a.test/"⟩,
        ⟨"https://b.test/", some "https://b.test/"⟩], [], [7]⟩
    ∧ ¬ ((Core.computePinnedWindowPlan [⟨7, some "", some "https://a.test/"⟩]
        [("https://a.test/", "https://a.test/"),
          ("https://b.test/", "https://b.test/")]).create.map CreateItem.key
      = ["https://b.test/"]) := by
  decide

/-- Claim C6 (amended): under the exact-identity variant engine the
scenario holds — the pending target serves as fallback identity, the
a.test instance is recognized, and `create` is exactly the b.test entry. -/
theorem pending_identity_amended :
    Variant.computePinnedWindowPlan [⟨7, some "", some "https://a.test/"⟩]
      [("https://a.test/", "https://a.test/"),
        ("https://b.test/", "https://b.test/")]
    = ⟨[⟨"https://b.test/", some "https://b.test/"⟩], [], []⟩ := by
  decide

/-- Claim C7 counterexample: the replace-with-newest variant applies
origin-level identity only to `gemini.google.com`; a `g.test` instance is
keyed by its exact URL, which is absent from canonical, so the plan
creates the canonical entry and removes the instance — `update` is empty,
not the claimed singleton. -/
theorem replace_claim_counterexample :
    Variant.computePinnedWindowPlan [⟨5, some "https://g.test/chat/1", none⟩]
      [("origin:https://g.test", "https://g.test/chat/2")]
    = ⟨[⟨"origin:https://g.test", some "https://g.test/chat/2"⟩], [], [5]⟩
    ∧ ¬ ((Variant.computePinnedWindowPlan
        [⟨5, some "https://g.test/chat/1", none⟩]
        [("origin:https://g.test", "https://g.test/chat/2")]).update
      = [⟨5, "https://g.test/chat/2"⟩]) := by
  decide

/-- Claim C7 (amended): with the Gemini host — the one host the variant
groups at origin level — the kept instance with matching identity but
differing content is retargeted, with empty `create` and `removeTabIds`. -/
theorem replace_with_newest_amended :
    Variant.computePinnedWindowPlan
      [⟨5, some "https://gemini.google.com/chat/1", none⟩]
      [("origin:https://gemini.google.com",
        "https://gemini.google.com/chat/2")]
    = ⟨[], [⟨5, "https://gemini.google.com/chat/2"⟩], []⟩ := by
  decide

/-- Claim C9 witness: fragment dropped, query kept, on a concrete URL. -/
theorem normalize_spec_witness :
    normalizeUrl "https://e.test/a?x=1#sec" = "https://e.test/a?x=1" :=
  (((normalize_spec "https://e.test/a?x=1#sec").2
    ⟨"https".data, some ("e.test".data, none), "/a".data,
      some "x=1".data, some "sec".data⟩ (by decide)).1).trans (by decide)

/-- Claim C10 witness: a parseable URL is keyed by its origin. -/
theorem origin_key_universal_witness :
    Core.canonicalKeyForUrl "https://e.test/a?x=1#sec"
      = "origin:https://e.test" :=
  (origin_key_universal.2.1 "https://e.test/a?x=1#sec"
    ⟨"https".data, some ("e.test".data, none), "/a".data,
      some "x=1".data, some "sec".data⟩ (by decide)).trans (by decide)

end PinAW

